import Mathlib

/-!
# Verification of the BecaonSim photometric / contouring / optimizer core

Shallow embedding of the repository's numerical core:

* `src/physics.ts` — `lerp`, `getLookupValue`, `getBeamIntensityDynamic`,
  `getSpectralCorrectionFactor`, `calculateIlluminance` (Allard's law model);
* `src/utils/marchSquares.ts` — marching squares with graph stitching and
  Chaikin smoothing;
* `src/App.tsx` — `generateLedConfig` and the `handleOptimize` coverage
  optimizer.

Pure numeric helpers are embedded polymorphically over a
`LinearOrderedField` so that rational instances stay decidable; the
transcendental photometric pipeline is embedded over `ℝ`.
JS `Number` arithmetic is idealized as exact field arithmetic.
-/

namespace BeaconSim

/-- Beam pattern sample: off-axis angle (degrees) and relative intensity.
Mirrors `BeamPoint` of `src/types.ts`. -/
structure BeamPoint (α : Type) where
  angle : α
  intensity : α
deriving DecidableEq, Repr

/-- `lerp` of `src/physics.ts` (lines 8–11): linear interpolation with a
division-by-zero guard that returns `y0` when `|x1 - x0| < 1e-9`. -/
def lerp {α : Type} [LinearOrderedField α] (x x0 x1 y0 y1 : α) : α :=
  if |x1 - x0| < 1 / 1000000000 then y0
  else y0 + (x - x0) * (y1 - y0) / (x1 - x0)

/-- The bracketing-pair scan of `getBeamIntensityDynamic`
(`src/physics.ts` lines 47–51): walk consecutive pairs
`(pattern[i], pattern[i+1])`, and on the first pair whose angles bracket
the query, linearly interpolate; if no pair matches, return `0`. -/
def scanPairs {α : Type} [LinearOrderedField α] :
    BeamPoint α → List (BeamPoint α) → α → α
  | _, [], _ => 0
  | cur, nxt :: rest, a =>
      if cur.angle ≤ a ∧ a ≤ nxt.angle then
        lerp a cur.angle nxt.angle cur.intensity nxt.intensity
      else scanPairs nxt rest a

/-- `getBeamIntensityDynamic` of `src/physics.ts` (lines 33–54):
on-axis plateau, strict cutoff past the last defined point, otherwise
the bracketing-pair scan.  The empty pattern (never constructed by the
app) is modelled as intensity `0`. -/
def getBeamIntensityDynamic {α : Type} [LinearOrderedField α]
    (beamPattern : List (BeamPoint α)) (angleDeg : α) : α :=
  match beamPattern with
  | [] => 0
  | p0 :: rest =>
      let absAngle := |angleDeg|
      if absAngle ≤ p0.angle then p0.intensity
      else
        let lastPoint := (p0 :: rest).getLast (List.cons_ne_nil _ _)
        if lastPoint.angle < absAngle then 0
        else scanPairs p0 rest absAngle

/-- The table scan of `getLookupValue` (`src/physics.ts` lines 21–25):
walk consecutive `(wavelength, value)` pairs and lerp on the first
bracketing pair; fall through to `0`. -/
def scanLookup {α : Type} [LinearOrderedField α] :
    α × α → List (α × α) → α → α
  | _, [], _ => 0
  | cur, nxt :: rest, v =>
      if cur.1 ≤ v ∧ v ≤ nxt.1 then lerp v cur.1 nxt.1 cur.2 nxt.2
      else scanLookup nxt rest v

/-- `getLookupValue` of `src/physics.ts` (lines 17–27): clamped
piecewise-linear table lookup. -/
def getLookupValue {α : Type} [LinearOrderedField α]
    (data : List (α × α)) (val : α) : α :=
  match data with
  | [] => 0
  | d0 :: rest =>
      if val ≤ d0.1 then d0.2
      else
        let dLast := (d0 :: rest).getLast (List.cons_ne_nil _ _)
        if dLast.1 ≤ val then dLast.2
        else scanLookup d0 rest val

/-- `SCOTOPIC_DATA` of `src/constants.ts`: CIE 1951 scotopic V'(λ). -/
def SCOTOPIC_DATA : List (ℚ × ℚ) :=
  [(380, 0.000589), (400, 0.00929), (420, 0.0966), (440, 0.3281),
   (460, 0.647), (480, 0.909), (500, 0.982), (507, 1.000),
   (520, 0.935), (540, 0.650), (560, 0.3288), (580, 0.1212),
   (600, 0.03315), (620, 0.00737), (640, 0.001497), (660, 0.0003129),
   (680, 0.0000715), (700, 0.0000178)]

/-- `PHOTOPIC_DATA` of `src/constants.ts`: CIE 1924 photopic V(λ). -/
def PHOTOPIC_DATA : List (ℚ × ℚ) :=
  [(380, 0.000039), (400, 0.000396), (420, 0.004000), (440, 0.023000),
   (460, 0.060000), (480, 0.139020), (500, 0.323000), (520, 0.710000),
   (540, 0.954000), (555, 1.000000), (560, 0.995000), (580, 0.870000),
   (600, 0.631000), (620, 0.381000), (640, 0.175000), (660, 0.061000),
   (680, 0.017000), (700, 0.004102)]

/-- `getSpectralCorrectionFactor` of `src/physics.ts` (lines 59–71):
`1.0` for wavelengths ≥ 700 nm, otherwise the Purkinje correction
`max 1 (2.489 * scotopic / max photopic 1e-6)`. -/
def getSpectralCorrectionFactor (wavelength : ℚ) : ℚ :=
  if 700 ≤ wavelength then 1
  else
    let v_scotopic := getLookupValue SCOTOPIC_DATA wavelength
    let v_photopic := getLookupValue PHOTOPIC_DATA wavelength
    let v_photopic_safe := max v_photopic (1 / 1000000)
    max 1 (2.489 * (v_scotopic / v_photopic_safe))

/-- `ALPHA` of `src/constants.ts`: atmospheric attenuation coefficient. -/
noncomputable def ALPHA : ℝ := 0.00015

/-- `calculateIlluminance` of `src/physics.ts` (lines 77–134): Allard's law
point-source illuminance with near-field clamping, yaw/pitch orientation,
strict backface culling, beam-pattern lookup and exponential atmospheric
attenuation. -/
noncomputable def calculateIlluminance (x y z angleH angleV peakCandela
    spectralFactor : ℝ) (beamPattern : List (BeamPoint ℝ)) : ℝ :=
  let d2 := x * x + y * y + z * z
  let dist := Real.sqrt d2
  let d_safe := max 0.05 dist
  let Dx := Real.sin angleH * Real.cos angleV
  let Dy := Real.cos angleH * Real.cos angleV
  let Dz := Real.sin angleV
  let Px := x / d_safe
  let Py := y / d_safe
  let Pz := z / d_safe
  let cosTheta := Dx * Px + Dy * Py + Dz * Pz
  if cosTheta ≤ 0.001 then 0
  else
    let thetaRad := Real.arccos (min 1 cosTheta)
    let thetaDeg := thetaRad * (180 / Real.pi)
    let relativeIntensity := getBeamIntensityDynamic beamPattern thetaDeg
    if relativeIntensity ≤ 0 then 0
    else
      let I_effective := peakCandela * spectralFactor * relativeIntensity
      let T := Real.exp (-ALPHA * d_safe)
      I_effective * T / (d_safe * d_safe)

/-- `generateLedConfig` of `src/App.tsx` (lines 95–129): yaw/pitch pairs as
the Cartesian product of a symmetric horizontal fan and a symmetric
vertical fan (single-element fans collapse to angle 0). -/
noncomputable def generateLedConfig (ledCount : ℕ) (spreadAngle : ℝ)
    (rowCount : ℕ) (verticalSpreadAngle : ℝ) : List (ℝ × ℝ) :=
  let hAngles : List ℝ :=
    if ledCount = 1 then [0]
    else
      let half := spreadAngle * Real.pi / 180
      let step := half * 2 / ((ledCount : ℝ) - 1)
      (List.range ledCount).map (fun (i : ℕ) => -half + (i : ℝ) * step)
  let vAngles : List ℝ :=
    if rowCount = 1 then [0]
    else
      let half := verticalSpreadAngle * Real.pi / 180
      let step := half * 2 / ((rowCount : ℝ) - 1)
      (List.range rowCount).map (fun (i : ℕ) => -half + (i : ℝ) * step)
  hAngles.flatMap (fun h => vAngles.map (fun v => (h, v)))

/-- The optimizer's fixed 3D sample lattice (`handleOptimize`,
`src/App.tsx` lines 495–509): `x = (i/4)·(W/2)` for `i = 0..4`,
`z = (k/4)·(H/2)` for `k = 0..4`, and `y = (j/8)·R` for `j = 1..8`
(the `y` loop starts at 1), pushed as `{x, y, z}` in loop order. -/
def optSamples {α : Type} [LinearOrderedField α] (targetW targetH targetR : α) :
    List (α × α × α) :=
  (List.range 5).flatMap fun (i : ℕ) =>
    (List.range 5).flatMap fun (k : ℕ) =>
      (List.range 8).map fun (j : ℕ) =>
        ((i : α) / 4 * (targetW / 2),
         ((j : α) + 1) / 8 * targetR,
         (k : α) / 4 * (targetH / 2))

/-- The optimizer's hit count (`src/App.tsx` lines 550–557): the number of
lattice points whose summed field meets or exceeds the threshold. -/
def optHits {α : Type} [LinearOrderedField α] (samples : List (α × α × α))
    (total : α × α × α → α) (threshold : α) : ℕ :=
  samples.countP (fun p => decide (threshold ≤ total p))

/-- The optimizer's coverage score (`src/App.tsx` line 559):
`coverage = hits / maxHits * 100` with `maxHits = samples.length`. -/
def optCoverage {α : Type} [LinearOrderedField α] (samples : List (α × α × α))
    (total : α × α × α → α) (threshold : α) : α :=
  ((optHits samples total threshold : ℕ) : α) / ((samples.length : ℕ) : α) * 100

/-- The summed field of the optimizer's inner loop (`src/App.tsx`
lines 552–555): total illuminance over all sources of the candidate
configuration at one sample point. -/
noncomputable def totalIlluminance (cfg : List (ℝ × ℝ))
    (peakCandela spectralFactor : ℝ) (beamPattern : List (BeamPoint ℝ))
    (p : ℝ × ℝ × ℝ) : ℝ :=
  (cfg.map (fun c => calculateIlluminance p.1 p.2.1 p.2.2 c.1 c.2
    peakCandela spectralFactor beamPattern)).sum

/-- Coverage of one `(h, v)` candidate as scored by `handleOptimize`
(`src/App.tsx` lines 550–559). -/
noncomputable def optimizerCoverage (targetW targetH targetR : ℝ)
    (cfg : List (ℝ × ℝ)) (peakCandela spectralFactor : ℝ)
    (beamPattern : List (BeamPoint ℝ)) (threshold : ℝ) : ℝ :=
  optCoverage (optSamples targetW targetH targetR)
    (totalIlluminance cfg peakCandela spectralFactor beamPattern) threshold

/-! ## Marching squares (`src/utils/marchSquares.ts`) -/

/-- 2D point (`Point` of `src/types.ts`). -/
structure Pt (α : Type) where
  x : α
  y : α
deriving DecidableEq, Repr

/-- Grid-edge identity (`getEdgeKey`, `src/utils/marchSquares.ts` line 36):
`H x y` is the horizontal edge from `(x,y)` to `(x+1,y)`, `V x y` the
vertical edge from `(x,y)` to `(x,y+1)`. -/
inductive EdgeKey where
  | H : ℕ → ℕ → EdgeKey
  | V : ℕ → ℕ → EdgeKey
deriving DecidableEq, Repr

/-- `GridData` of `src/types.ts` with the flat `Float32Array` modelled as a
total function on flat indices. -/
structure GridData where
  data : ℕ → ℚ
  width : ℕ
  height : ℕ
  minX : ℚ
  maxX : ℚ
  minY : ℚ
  maxY : ℚ

/-- `interpolate` of `src/utils/marchSquares.ts` (lines 6–9): linear
threshold interpolation, returning the midpoint on a degenerate edge. -/
def interpolate (val1 val2 out1 out2 threshold : ℚ) : ℚ :=
  if |val2 - val1| < 1 / 1000000000 then (out1 + out2) / 2
  else out1 + (out2 - out1) * ((threshold - val1) / (val2 - val1))

/-- `getX` (`src/utils/marchSquares.ts` line 23). -/
def gridX (g : GridData) (gx : ℕ) : ℚ :=
  g.minX + (gx : ℚ) * ((g.maxX - g.minX) / ((g.width : ℚ) - 1))

/-- `getY` (`src/utils/marchSquares.ts` line 24). -/
def gridY (g : GridData) (gy : ℕ) : ℚ :=
  g.minY + (gy : ℚ) * ((g.maxY - g.minY) / ((g.height : ℚ) - 1))

/-- `getVal` (`src/utils/marchSquares.ts` line 27): row-major lookup. -/
def getVal (g : GridData) (gx gy : ℕ) : ℚ :=
  g.data (gy * g.width + gx)

/-- The 4-bit cell configuration (`src/utils/marchSquares.ts` lines 59–63):
TL = 8, TR = 4, BR = 2, BL = 1, a bit set when the corner value is
`≥ threshold`. -/
def cellConfig (g : GridData) (threshold : ℚ) (gx gy : ℕ) : ℕ :=
  ((if threshold ≤ getVal g gx gy then 8 else 0) |||
   (if threshold ≤ getVal g (gx + 1) gy then 4 else 0)) |||
  ((if threshold ≤ getVal g (gx + 1) (gy + 1) then 2 else 0) |||
   (if threshold ≤ getVal g gx (gy + 1) then 1 else 0))

/-- The top-edge activity test of `src/utils/marchSquares.ts` line 70:
`(config & 8) !== (config & 4)`. -/
def topEdgeActive (config : ℕ) : Prop := config &&& 8 ≠ config &&& 4

/-- The right-edge activity test (line 77): `(config & 4) !== (config & 2)`. -/
def rightEdgeActive (config : ℕ) : Prop := config &&& 4 ≠ config &&& 2

/-- The bottom-edge activity test (line 84): `(config & 1) !== (config & 2)`. -/
def bottomEdgeActive (config : ℕ) : Prop := config &&& 1 ≠ config &&& 2

/-- The left-edge activity test (line 91): `(config & 8) !== (config & 1)`. -/
def leftEdgeActive (config : ℕ) : Prop := config &&& 8 ≠ config &&& 1

instance : DecidablePred topEdgeActive := fun _ => by unfold topEdgeActive; infer_instance
instance : DecidablePred rightEdgeActive := fun _ => by unfold rightEdgeActive; infer_instance
instance : DecidablePred bottomEdgeActive := fun _ => by unfold bottomEdgeActive; infer_instance
instance : DecidablePred leftEdgeActive := fun _ => by unfold leftEdgeActive; infer_instance

/-- The per-cell connection table (`switch (config)`,
`src/utils/marchSquares.ts` lines 97–118), with the cell's edge keys
substituted for `kTop`/`kRight`/`kBottom`/`kLeft`. -/
def cellConnections (gx gy : ℕ) (config : ℕ) : List (EdgeKey × EdgeKey) :=
  let kTop := EdgeKey.H gx gy
  let kRight := EdgeKey.V (gx + 1) gy
  let kBottom := EdgeKey.H gx (gy + 1)
  let kLeft := EdgeKey.V gx gy
  match config with
  | 1 => [(kLeft, kBottom)]
  | 2 => [(kBottom, kRight)]
  | 3 => [(kLeft, kRight)]
  | 4 => [(kTop, kRight)]
  | 5 => [(kTop, kLeft), (kBottom, kRight)]
  | 6 => [(kTop, kBottom)]
  | 7 => [(kTop, kLeft)]
  | 8 => [(kLeft, kTop)]
  | 9 => [(kTop, kBottom)]
  | 10 => [(kTop, kRight), (kLeft, kBottom)]
  | 11 => [(kTop, kRight)]
  | 12 => [(kLeft, kRight)]
  | 13 => [(kBottom, kRight)]
  | 14 => [(kLeft, kBottom)]
  | _ => []

/-- The four edge keys of cell `(gx, gy)`. -/
def cellKeys (gx gy : ℕ) : List EdgeKey :=
  [EdgeKey.H gx gy, EdgeKey.V (gx + 1) gy, EdgeKey.H gx (gy + 1), EdgeKey.V gx gy]

/-- Cell scan order of the graph-building loop
(`src/utils/marchSquares.ts` lines 50–51): row-major over the
`(width-1) × (height-1)` cells. -/
def cells (width height : ℕ) : List (ℕ × ℕ) :=
  (List.range (height - 1)).flatMap fun gy =>
    (List.range (width - 1)).map fun gx => (gx, gy)

/-- All `addConnection` calls of one grid pass, in program order.
Configurations 0 and 15 contribute no connections, exactly as the
`continue` on line 65 of the source. -/
def allConnections (g : GridData) (threshold : ℚ) : List (EdgeKey × EdgeKey) :=
  (cells g.width g.height).flatMap fun c =>
    cellConnections c.1 c.2 (cellConfig g threshold c.1 c.2)

/-- What one connection contributes to the adjacency list of `k`
(`addConnection`, `src/utils/marchSquares.ts` lines 42–47). -/
def nbrContrib (k : EdgeKey) (c : EdgeKey × EdgeKey) : List EdgeKey :=
  (if c.1 = k then [c.2] else []) ++ (if c.2 = k then [c.1] else [])

/-- The adjacency list `adj.get(k)` after all `addConnection` calls. -/
def neighbors (conns : List (EdgeKey × EdgeKey)) (k : EdgeKey) : List EdgeKey :=
  conns.flatMap (nbrContrib k)

/-- Graph degree of a node: the length of its adjacency list. -/
def degreeKey (conns : List (EdgeKey × EdgeKey)) (k : EdgeKey) : ℕ :=
  (neighbors conns k).length

/-- The keys of the `adj` map in insertion order (`addConnection` inserts
`k1` then `k2` on first sight). -/
def insertionKeys (conns : List (EdgeKey × EdgeKey)) : List EdgeKey :=
  (conns.flatMap (fun c => [c.1, c.2])).foldl
    (fun acc k => if k ∈ acc then acc else acc ++ [k]) []

/-- The interpolated crossing point stored for an edge key
(`addNode` calls, `src/utils/marchSquares.ts` lines 71–93; the value is
identical from whichever adjacent cell first stores it). -/
def nodePoint (g : GridData) (threshold : ℚ) : EdgeKey → Pt ℚ
  | EdgeKey.H x y =>
      ⟨interpolate (getVal g x y) (getVal g (x + 1) y)
        (gridX g x) (gridX g (x + 1)) threshold, gridY g y⟩
  | EdgeKey.V x y =>
      ⟨gridX g x, interpolate (getVal g x y) (getVal g x (y + 1))
        (gridY g y) (gridY g (y + 1)) threshold⟩

/-- The `trace` walk (`src/utils/marchSquares.ts` lines 152–175) on edge
keys, with explicit fuel: visit the current node, then continue to its
first unvisited neighbor; stop on a visited node or a dead end.  Returns
the visited path and the updated visited set. -/
def traceAux (adjF : EdgeKey → List EdgeKey) :
    ℕ → List EdgeKey → EdgeKey → List EdgeKey × List EdgeKey
  | 0, visited, _ => ([], visited)
  | fuel + 1, visited, c =>
      if c ∈ visited then ([], visited)
      else
        let visited' := c :: visited
        match (adjF c).find? (fun k => decide (k ∉ visited')) with
        | none => ([c], visited')
        | some nxt =>
            let r := traceAux adjF fuel visited' nxt
            (c :: r.1, r.2)

/-- One traversal phase (`src/utils/marchSquares.ts` lines 186–214):
trace every unvisited key of the list; in the loop phase (`close = true`)
a path longer than 2 gets its first point appended again. -/
def runPhase (adjF : EdgeKey → List EdgeKey) (fuel : ℕ) (close : Bool) :
    List EdgeKey → List EdgeKey → List (List EdgeKey) →
    List (List EdgeKey) × List EdgeKey
  | [], visited, acc => (acc, visited)
  | k :: ks, visited, acc =>
      if k ∈ visited then runPhase adjF fuel close ks visited acc
      else
        let r := traceAux adjF fuel visited k
        let p := if close ∧ 2 < r.1.length then r.1 ++ [r.1.headD k] else r.1
        runPhase adjF fuel close ks r.2 (acc ++ [p])

/-- One Chaikin corner-cutting pass (`smoothChaikin` loop body,
`src/utils/marchSquares.ts` lines 230–266). -/
def chaikinPass {α : Type} [LinearOrderedField α] (current : List (Pt α)) :
    List (Pt α) :=
  let isClosed :=
    match current.head?, current.getLast? with
    | some f, some l =>
        decide (|f.x - l.x| < 1 / 100000) && decide (|f.y - l.y| < 1 / 100000)
    | _, _ => false
  let cut := (current.zip current.tail).flatMap fun q =>
    [⟨(3 : α) / 4 * q.1.x + 1 / 4 * q.2.x, (3 : α) / 4 * q.1.y + 1 / 4 * q.2.y⟩,
     ⟨(1 : α) / 4 * q.1.x + 3 / 4 * q.2.x, (1 : α) / 4 * q.1.y + 3 / 4 * q.2.y⟩]
  if isClosed then cut ++ [cut.headD ⟨0, 0⟩]
  else (current.headD ⟨0, 0⟩) :: (cut ++ [current.getLastD ⟨0, 0⟩])

/-- The iteration loop of `smoothChaikin`. -/
def chaikinIter {α : Type} [LinearOrderedField α] :
    ℕ → List (Pt α) → List (Pt α)
  | 0, l => l
  | n + 1, l => chaikinIter n (chaikinPass l)

/-- `smoothChaikin` of `src/utils/marchSquares.ts` (lines 225–270). -/
def smoothChaikin {α : Type} [LinearOrderedField α] (points : List (Pt α))
    (iterations : ℕ) : List (Pt α) :=
  if iterations = 0 ∨ points.length < 3 then points
  else chaikinIter iterations points

/-- `marchSquares` of `src/utils/marchSquares.ts` (lines 19–218): build the
edge-crossing graph, trace open paths from degree-1 endpoints, trace the
remaining loops (closing those longer than 2), map keys to interpolated
points and smooth every polyline with 2 Chaikin iterations. -/
def marchSquares (g : GridData) (threshold : ℚ) : List (List (Pt ℚ)) :=
  let conns := allConnections g threshold
  let adjF := neighbors conns
  let keys := insertionKeys conns
  let fuel := keys.length + 1
  let endpoints := keys.filter (fun k => decide ((adjF k).length = 1))
  let midpoints := keys.filter (fun k => decide (¬(adjF k).length = 1))
  let r1 := runPhase adjF fuel false endpoints [] []
  let r2 := runPhase adjF fuel true midpoints r1.2 []
  let keyPaths := r1.1 ++ r2.1
  (keyPaths.map (List.map (nodePoint g threshold))).map
    (fun p => smoothChaikin p 2)

/-! ## Theorems -/

/-- The division-by-zero guard of `lerp`: a degenerate span returns `y0`
(the first bound), not the midpoint. -/
theorem lerp_degenerate {α : Type} [LinearOrderedField α] (x x0 x1 y0 y1 : α)
    (h : |x1 - x0| < 1 / 1000000000) : lerp x x0 x1 y0 y1 = y0 := by
  rw [lerp, if_pos h]

/-- C9: the spectral correction factor is always ≥ 1, equals exactly 1 for
wavelengths ≥ 700 nm, and below 700 nm equals
`max 1 (2.489 · scotopic(λ) / max (photopic(λ)) 1e-6)` with both curve
values obtained by the clamped piecewise-linear CIE table lookup. -/
theorem C9_spectral_correction_spec (wavelength : ℚ) :
    1 ≤ getSpectralCorrectionFactor wavelength ∧
    (700 ≤ wavelength → getSpectralCorrectionFactor wavelength = 1) ∧
    (wavelength < 700 →
      getSpectralCorrectionFactor wavelength =
        max 1 (2.489 * (getLookupValue SCOTOPIC_DATA wavelength /
          max (getLookupValue PHOTOPIC_DATA wavelength) (1 / 1000000)))) := by
  refine ⟨?_, fun h => ?_, fun h => ?_⟩
  · unfold getSpectralCorrectionFactor
    split_ifs with h
    · exact le_refl 1
    · exact le_max_left _ _
  · unfold getSpectralCorrectionFactor
    rw [if_pos h]
  · unfold getSpectralCorrectionFactor
    rw [if_neg (not_le.mpr h)]

/-- Witness for C9 at concrete wavelengths 750 nm and 525 nm. -/
theorem C9_spectral_correction_spec_witness :
    getSpectralCorrectionFactor 750 = 1 ∧
    1 ≤ getSpectralCorrectionFactor 525 :=
  ⟨(C9_spectral_correction_spec 750).2.1 (by norm_num),
   (C9_spectral_correction_spec 525).1⟩

/-- C7 counterexample: a beam pattern whose bracketing pair is degenerate
under the code's guard (angle gap `1e-10 < 1e-9`) with intensities `3/5`
and `1/5`; the lookup returns the pair's first intensity `3/5`, not the
midpoint `2/5` claimed by the spec. -/
theorem C7_counterexample :
    |((5 : ℚ) + 1 / 10000000000) - 5| < 1 / 1000000000 ∧
    getBeamIntensityDynamic
      [(⟨0, 1⟩ : BeamPoint ℚ), ⟨5, 3 / 5⟩, ⟨5 + 1 / 10000000000, 1 / 5⟩]
      (5 + 1 / 10000000000) = 3 / 5 ∧
    (3 : ℚ) / 5 ≠ (3 / 5 + 1 / 5) / 2 := by
  have habs : |((5 : ℚ) + 1 / 10000000000) - 5| = 1 / 10000000000 := by
    rw [show ((5 : ℚ) + 1 / 10000000000) - 5 = 1 / 10000000000 by ring]
    exact abs_of_pos (by norm_num)
  refine ⟨by rw [habs]; norm_num, ?_, by norm_num⟩
  norm_num [getBeamIntensityDynamic, scanPairs, lerp, abs_of_nonneg]

/-- C7 (amended): when the bracketing pair located by the scan is
degenerate (angle difference below the `1e-9` guard), the returned
intensity is the FIRST point's intensity of the pair (via `lerp`'s
division-by-zero guard), not the midpoint of the two intensities. -/
theorem C7_degenerate_pair_first_intensity {α : Type} [LinearOrderedField α]
    (cur nxt : BeamPoint α) (rest : List (BeamPoint α)) (a : α)
    (h1 : cur.angle ≤ a) (h2 : a ≤ nxt.angle)
    (h3 : |nxt.angle - cur.angle| < 1 / 1000000000) :
    scanPairs cur (nxt :: rest) a = cur.intensity := by
  rw [scanPairs, if_pos ⟨h1, h2⟩]
  exact lerp_degenerate a cur.angle nxt.angle cur.intensity nxt.intensity h3

/-- Witness for the amended C7 on a concrete degenerate pair. -/
theorem C7_degenerate_pair_first_intensity_witness :
    scanPairs (⟨5, 3 / 5⟩ : BeamPoint ℚ) [⟨5 + 1 / 10000000000, 1 / 5⟩]
      (5 + 1 / 10000000000) = 3 / 5 :=
  C7_degenerate_pair_first_intensity ⟨5, 3 / 5⟩ ⟨5 + 1 / 10000000000, 1 / 5⟩
    [] (5 + 1 / 10000000000) (by norm_num) (by norm_num)
    (by norm_num [abs_of_pos (show (0 : ℚ) < 1 / 10000000000 by norm_num)])

/-- C1 counterexample: a 2×2 grid with `TL = BR = 10`, `TR = BL = 0` and
threshold 5 — the TL+BR-above saddle (configuration 10).  The code adds
the two connections Top–Right and Left–Bottom; contrary to the claim, the
top edge is NOT joined to the left edge. -/
theorem C1_counterexample :
    cellConfig ⟨fun i => [10, 0, 0, 10].getD i 0, 2, 2, 0, 1, 0, 1⟩ 5 0 0 = 10 ∧
    cellConnections 0 0 10 =
      [(EdgeKey.H 0 0, EdgeKey.V 1 0), (EdgeKey.V 0 0, EdgeKey.H 0 1)] ∧
    (EdgeKey.H 0 0, EdgeKey.V 0 0) ∉ cellConnections 0 0 10 ∧
    (EdgeKey.V 0 0, EdgeKey.H 0 0) ∉ cellConnections 0 0 10 := by
  refine ⟨?_, rfl, by simp [cellConnections], by simp [cellConnections]⟩
  norm_num [cellConfig, getVal, List.getD]
  decide

/-- C1 (amended): each ambiguous saddle resolves to exactly two separate
connections, but each connection joins the two edges adjacent to the same
BELOW-threshold corner: for the TL+BR-above saddle (configuration 10) the
top edge joins the right edge (around TR) and the left edge joins the
bottom edge (around BL); for the TR+BL-above saddle (configuration 5) the
top edge joins the left edge (around TL) and the bottom edge joins the
right edge (around BR). -/
theorem C1_saddle_two_connections (g : GridData) (threshold : ℚ) (gx gy : ℕ) :
    (threshold ≤ getVal g gx gy → ¬threshold ≤ getVal g (gx + 1) gy →
     threshold ≤ getVal g (gx + 1) (gy + 1) → ¬threshold ≤ getVal g gx (gy + 1) →
      cellConfig g threshold gx gy = 10 ∧
      cellConnections gx gy (cellConfig g threshold gx gy) =
        [(EdgeKey.H gx gy, EdgeKey.V (gx + 1) gy),
         (EdgeKey.V gx gy, EdgeKey.H gx (gy + 1))]) ∧
    (¬threshold ≤ getVal g gx gy → threshold ≤ getVal g (gx + 1) gy →
     ¬threshold ≤ getVal g (gx + 1) (gy + 1) → threshold ≤ getVal g gx (gy + 1) →
      cellConfig g threshold gx gy = 5 ∧
      cellConnections gx gy (cellConfig g threshold gx gy) =
        [(EdgeKey.H gx gy, EdgeKey.V gx gy),
         (EdgeKey.H gx (gy + 1), EdgeKey.V (gx + 1) gy)]) := by
  constructor
  · intro h1 h2 h3 h4
    have hc : cellConfig g threshold gx gy = 10 := by
      simp only [cellConfig, if_pos h1, if_neg h2, if_pos h3, if_neg h4]
      decide
    exact ⟨hc, by rw [hc]; rfl⟩
  · intro h1 h2 h3 h4
    have hc : cellConfig g threshold gx gy = 5 := by
      simp only [cellConfig, if_neg h1, if_pos h2, if_neg h3, if_pos h4]
      decide
    exact ⟨hc, by rw [hc]; rfl⟩

/-- Witness for the amended C1 on the two concrete saddle grids. -/
theorem C1_saddle_two_connections_witness :
    (cellConfig ⟨fun i => [10, 0, 0, 10].getD i 0, 2, 2, 0, 1, 0, 1⟩ 5 0 0 = 10 ∧
      cellConnections 0 0
          (cellConfig ⟨fun i => [10, 0, 0, 10].getD i 0, 2, 2, 0, 1, 0, 1⟩ 5 0 0) =
        [(EdgeKey.H 0 0, EdgeKey.V 1 0), (EdgeKey.V 0 0, EdgeKey.H 0 1)]) ∧
    (cellConfig ⟨fun i => [0, 10, 10, 0].getD i 0, 2, 2, 0, 1, 0, 1⟩ 5 0 0 = 5 ∧
      cellConnections 0 0
          (cellConfig ⟨fun i => [0, 10, 10, 0].getD i 0, 2, 2, 0, 1, 0, 1⟩ 5 0 0) =
        [(EdgeKey.H 0 0, EdgeKey.V 0 0), (EdgeKey.H 0 1, EdgeKey.V 1 0)]) :=
  ⟨(C1_saddle_two_connections ⟨fun i => [10, 0, 0, 10].getD i 0, 2, 2, 0, 1, 0, 1⟩
      5 0 0).1
      (by norm_num [getVal, List.getD]) (by norm_num [getVal, List.getD])
      (by norm_num [getVal, List.getD]) (by norm_num [getVal, List.getD]),
   (C1_saddle_two_connections ⟨fun i => [0, 10, 10, 0].getD i 0, 2, 2, 0, 1, 0, 1⟩
      5 0 0).2
      (by norm_num [getVal, List.getD]) (by norm_num [getVal, List.getD])
      (by norm_num [getVal, List.getD]) (by norm_num [getVal, List.getD])⟩

/-- C4: the code's edge-activity test is NOT the claimed XOR of the two
corner classifications.  `(config & 8) !== (config & 4)` compares masks at
different bit positions, so it fires whenever AT LEAST ONE of the two
corners is at/above threshold.  Concretely, the 2×2 grid
`TL = TR = 10, BL = 0, BR = 10` at threshold 5 gives configuration 14:
both top corners are at/above threshold, yet the top-edge test fires and a
top-edge node is created — contradicting the inline comment
"active if bits differ" and the claim. -/
theorem C4_activity_test_fires_on_shared_bits :
    (∀ config < 16, (topEdgeActive config ↔
        ¬(config &&& 8 = 0 ∧ config &&& 4 = 0))) ∧
    cellConfig ⟨fun i => [10, 10, 0, 10].getD i 0, 2, 2, 0, 1, 0, 1⟩ 5 0 0 = 14 ∧
    (5 : ℚ) ≤ getVal ⟨fun i => [10, 10, 0, 10].getD i 0, 2, 2, 0, 1, 0, 1⟩ 0 0 ∧
    (5 : ℚ) ≤ getVal ⟨fun i => [10, 10, 0, 10].getD i 0, 2, 2, 0, 1, 0, 1⟩ 1 0 ∧
    topEdgeActive 14 := by
  refine ⟨by decide, ?_, ?_, ?_, by decide⟩
  · norm_num [cellConfig, getVal, List.getD]
    decide
  · norm_num [getVal, List.getD]
  · norm_num [getVal, List.getD]

/-- C2 counterexample: for the app's default target box
(width 1000, height 600, range 2000) the optimizer lattice has
5·5·8 = 200 points — not 225 — and, since the `y` loop starts at `j = 1`,
no lattice point has `y = 0`. -/
theorem C2_counterexample :
    (optSamples (1000 : ℚ) 600 2000).length = 200 ∧
    (optSamples (1000 : ℚ) 600 2000).length ≠ 225 ∧
    ∀ p ∈ optSamples (1000 : ℚ) 600 2000, p.2.1 ≠ 0 := by
  refine ⟨rfl, by norm_num [show (optSamples (1000 : ℚ) 600 2000).length = 200 from rfl], ?_⟩
  intro p hp
  obtain ⟨i, hi, hp⟩ := List.mem_flatMap.mp hp
  obtain ⟨k, hk, hp⟩ := List.mem_flatMap.mp hp
  obtain ⟨j, hj, hpe⟩ := List.mem_map.mp hp
  subst hpe
  show ((j : ℚ) + 1) / 8 * 2000 ≠ 0
  have h0 : (0 : ℚ) ≤ (j : ℚ) := Nat.cast_nonneg j
  positivity

/-- C2 (amended): for every target box, the optimizer lattice has exactly
5 × 5 × 8 = 200 points; the zero coordinate is attained on the `x` and `z`
axes (at `i = 0`, `k = 0`), but the `y` samples run over `(j/8)·R` for
`j = 1..8` and — for a nonzero range — never include `y = 0`; coverage is
`hits / totalSamples × 100`. -/
theorem C2_lattice_spec {α : Type} [LinearOrderedField α] (W H R : α) :
    (optSamples W H R).length = 200 ∧
    (∃ p ∈ optSamples W H R, p.1 = 0 ∧ p.2.2 = 0) ∧
    (R ≠ 0 → ∀ p ∈ optSamples W H R, p.2.1 ≠ 0) ∧
    (∀ (total : α × α × α → α) (threshold : α),
      optCoverage (optSamples W H R) total threshold =
        ((optHits (optSamples W H R) total threshold : ℕ) : α) / 200 * 100) := by
  have hlen : (optSamples W H R).length = 200 := rfl
  refine ⟨hlen, ?_, ?_, ?_⟩
  · refine ⟨_, List.mem_flatMap.mpr ⟨0, List.mem_range.mpr (by norm_num : (0 : ℕ) < 5),
      List.mem_flatMap.mpr ⟨0, List.mem_range.mpr (by norm_num : (0 : ℕ) < 5),
      List.mem_map.mpr ⟨0, List.mem_range.mpr (by norm_num : (0 : ℕ) < 8), rfl⟩⟩⟩,
      ?_, ?_⟩
    · norm_num
    · norm_num
  · intro hR p hp
    obtain ⟨i, hi, hp⟩ := List.mem_flatMap.mp hp
    obtain ⟨k, hk, hp⟩ := List.mem_flatMap.mp hp
    obtain ⟨j, hj, hpe⟩ := List.mem_map.mp hp
    subst hpe
    show ((j : α) + 1) / 8 * R ≠ 0
    have h0 : (0 : α) ≤ (j : α) := Nat.cast_nonneg j
    have h1 : (0 : α) < (j : α) + 1 := by linarith
    have hpos : (0 : α) < ((j : α) + 1) / 8 := div_pos h1 (by norm_num)
    exact mul_ne_zero hpos.ne' hR
  · intro total threshold
    rw [optCoverage, hlen]
    norm_num

/-- Witness for the amended C2 at the app's default target box over `ℚ`. -/
theorem C2_lattice_spec_witness :
    (optSamples (1000 : ℚ) 600 2000).length = 200 ∧
    ∀ p ∈ optSamples (1000 : ℚ) 600 2000, p.2.1 ≠ 0 :=
  ⟨(C2_lattice_spec (1000 : ℚ) 600 2000).1,
   (C2_lattice_spec (1000 : ℚ) 600 2000).2.2.1 (by norm_num)⟩

/-- `lerp` between two bounds is nonnegative when both interpolated values
are nonnegative and the query is bracketed. -/
theorem lerp_nonneg_of_bracket {α : Type} [LinearOrderedField α]
    {x x0 x1 y0 y1 : α} (hy0 : 0 ≤ y0) (hy1 : 0 ≤ y1)
    (h0 : x0 ≤ x) (h1 : x ≤ x1) : 0 ≤ lerp x x0 x1 y0 y1 := by
  rw [lerp]
  split_ifs with h
  · exact hy0
  · have hne : x1 - x0 ≠ 0 := fun hc => by simp [hc] at h
    have hlt : 0 < x1 - x0 := by
      rcases lt_trichotomy x0 x1 with hlt | heq | hgt
      · linarith
      · exact absurd heq (fun hh => hne (by rw [hh]; ring))
      · linarith
    have hx : 0 ≤ (x - x0) / (x1 - x0) := div_nonneg (by linarith) hlt.le
    have hx' : (x - x0) / (x1 - x0) ≤ 1 := by
      rw [div_le_one hlt]; linarith
    have : y0 + (x - x0) * (y1 - y0) / (x1 - x0) =
        (1 - (x - x0) / (x1 - x0)) * y0 + ((x - x0) / (x1 - x0)) * y1 := by
      field_simp
      ring
    rw [this]
    have := mul_nonneg (by linarith : (0 : α) ≤ 1 - (x - x0) / (x1 - x0)) hy0
    have := mul_nonneg hx hy1
    linarith

/-- The pair scan never returns a negative intensity when the pattern's
intensities are nonnegative. -/
theorem scanPairs_nonneg {α : Type} [LinearOrderedField α]
    (cur : BeamPoint α) (rest : List (BeamPoint α)) (a : α)
    (hcur : 0 ≤ cur.intensity) (hrest : ∀ p ∈ rest, 0 ≤ p.intensity) :
    0 ≤ scanPairs cur rest a := by
  induction rest generalizing cur with
  | nil => rw [scanPairs]
  | cons nxt rest ih =>
      rw [scanPairs]
      split_ifs with h
      · exact lerp_nonneg_of_bracket hcur (hrest nxt (List.mem_cons_self _ _))
          h.1 h.2
      · exact ih nxt (hrest nxt (List.mem_cons_self _ _))
          (fun p hp => hrest p (List.mem_cons_of_mem _ hp))

/-- The beam lookup never returns a negative intensity when the pattern's
intensities are nonnegative. -/
theorem getBeamIntensityDynamic_nonneg {α : Type} [LinearOrderedField α]
    (beamPattern : List (BeamPoint α)) (angleDeg : α)
    (hints : ∀ p ∈ beamPattern, 0 ≤ p.intensity) :
    0 ≤ getBeamIntensityDynamic beamPattern angleDeg := by
  cases beamPattern with
  | nil => simp [getBeamIntensityDynamic]
  | cons p0 rest =>
      rw [getBeamIntensityDynamic.eq_def]
      simp only
      split_ifs with h1 h2
      · exact hints p0 (List.mem_cons_self _ _)
      · exact le_refl 0
      · exact scanPairs_nonneg p0 rest |angleDeg|
          (hints p0 (List.mem_cons_self _ _))
          (fun p hp => hints p (List.mem_cons_of_mem _ hp))

/-- C5: `calculateIlluminance` is total and nonnegative: for finite inputs
with nonnegative peak intensity, spectral factor and beam intensities and
a nonempty pattern, the result is a well-defined nonnegative real (the
exact-real embedding has no NaN/infinity; the near-field clamp keeps the
denominator away from zero). -/
theorem C5_illuminance_total_nonneg (x y z angleH angleV peakCandela
    spectralFactor : ℝ) (beamPattern : List (BeamPoint ℝ))
    (hpeak : 0 ≤ peakCandela) (hsf : 0 ≤ spectralFactor)
    (hpat : beamPattern ≠ [])
    (hints : ∀ p ∈ beamPattern, 0 ≤ p.intensity) :
    0 ≤ calculateIlluminance x y z angleH angleV peakCandela spectralFactor
      beamPattern := by
  rw [calculateIlluminance]
  simp only
  split_ifs with h1 h2
  · exact le_refl 0
  · exact le_refl 0
  · have hrel : (0 : ℝ) < getBeamIntensityDynamic beamPattern
        (Real.arccos (min 1 _) * (180 / Real.pi)) := not_le.mp h2
    have hd : (0 : ℝ) < max 0.05 (Real.sqrt (x * x + y * y + z * z)) :=
      lt_max_of_lt_left (by norm_num)
    apply div_nonneg
    · exact mul_nonneg (mul_nonneg (mul_nonneg hpeak hsf) hrel.le)
        (Real.exp_nonneg _)
    · exact (mul_pos hd hd).le

/-- Witness for C5 at a concrete configuration. -/
theorem C5_illuminance_total_nonneg_witness :
    0 ≤ calculateIlluminance 1 2 3 0 0 1 1 [⟨0, 1⟩] :=
  C5_illuminance_total_nonneg 1 2 3 0 0 1 1 [⟨0, 1⟩] (by norm_num) (by norm_num)
    (by simp) (by intro p hp; simp at hp; simp [hp])

/-- C6: strict backface culling — whenever the dot product of the point
with the source direction vector is ≤ 0, the illuminance is exactly 0,
independent of distance, intensity, spectral factor and beam pattern. -/
theorem C6_backface_culling (x y z angleH angleV peakCandela
    spectralFactor : ℝ) (beamPattern : List (BeamPoint ℝ))
    (hdot : Real.sin angleH * Real.cos angleV * x +
      Real.cos angleH * Real.cos angleV * y + Real.sin angleV * z ≤ 0) :
    calculateIlluminance x y z angleH angleV peakCandela spectralFactor
      beamPattern = 0 := by
  rw [calculateIlluminance]
  simp only
  split_ifs with h1 h2
  · rfl
  · rfl
  · exfalso
    apply h1
    have hd : (0 : ℝ) < max 0.05 (Real.sqrt (x * x + y * y + z * z)) :=
      lt_max_of_lt_left (by norm_num)
    set d := max 0.05 (Real.sqrt (x * x + y * y + z * z)) with hdef
    have heq : Real.sin angleH * Real.cos angleV * (x / d) +
        Real.cos angleH * Real.cos angleV * (y / d) +
        Real.sin angleV * (z / d) =
        (Real.sin angleH * Real.cos angleV * x +
         Real.cos angleH * Real.cos angleV * y + Real.sin angleV * z) / d := by
      ring
    rw [heq]
    have hle : (Real.sin angleH * Real.cos angleV * x +
        Real.cos angleH * Real.cos angleV * y + Real.sin angleV * z) / d ≤ 0 :=
      div_nonpos_of_nonpos_of_nonneg hdot hd.le
    linarith [hle]

/-- Witness for C6: a point directly behind an axis-aligned source. -/
theorem C6_backface_culling_witness :
    calculateIlluminance 0 (-1) 0 0 0 1 1 [⟨0, 1⟩] = 0 :=
  C6_backface_culling 0 (-1) 0 0 0 1 1 [⟨0, 1⟩]
    (by simp)

/-- `calculateIlluminance` is monotone nondecreasing in the peak
intensity (all branch conditions are independent of it). -/
theorem calculateIlluminance_mono_peak (x y z angleH angleV sf : ℝ)
    (beamPattern : List (BeamPoint ℝ)) (p q : ℝ) (hsf : 0 ≤ sf)
    (hpq : p ≤ q) :
    calculateIlluminance x y z angleH angleV p sf beamPattern ≤
      calculateIlluminance x y z angleH angleV q sf beamPattern := by
  rw [calculateIlluminance, calculateIlluminance]
  simp only
  split_ifs with h1 h2
  · exact le_refl 0
  · exact le_refl 0
  · have hrel : (0 : ℝ) < getBeamIntensityDynamic beamPattern
        (Real.arccos (min 1 _) * (180 / Real.pi)) := not_le.mp h2
    have hd : (0 : ℝ) < max 0.05 (Real.sqrt (x * x + y * y + z * z)) :=
      lt_max_of_lt_left (by norm_num)
    apply (div_le_div_right (mul_pos hd hd)).mpr
    exact mul_le_mul_of_nonneg_right
      (mul_le_mul_of_nonneg_right (mul_le_mul_of_nonneg_right hpq hsf) hrel.le)
      (Real.exp_nonneg _)

/-- The summed field is monotone nondecreasing in the peak intensity. -/
theorem totalIlluminance_mono_peak (cfg : List (ℝ × ℝ)) (sf : ℝ)
    (beamPattern : List (BeamPoint ℝ)) (pt : ℝ × ℝ × ℝ) (p q : ℝ)
    (hsf : 0 ≤ sf) (hpq : p ≤ q) :
    totalIlluminance cfg p sf beamPattern pt ≤
      totalIlluminance cfg q sf beamPattern pt := by
  unfold totalIlluminance
  exact List.sum_le_sum fun c _ =>
    calculateIlluminance_mono_peak pt.1 pt.2.1 pt.2.2 c.1 c.2 sf beamPattern
      p q hsf hpq

/-- `countP` is monotone along a pointwise implication of predicates. -/
theorem countP_mono_of_imp {α : Type} (l : List α) (p q : α → Bool)
    (h : ∀ a ∈ l, p a = true → q a = true) : l.countP p ≤ l.countP q := by
  induction l with
  | nil => simp
  | cons a l ih =>
      rw [List.countP_cons, List.countP_cons]
      have ha := h a (List.mem_cons_self a l)
      have ih' := ih (fun b hb => h b (List.mem_cons_of_mem a hb))
      by_cases hp : p a <;> by_cases hq : q a <;> simp_all <;> omega

/-- C8: the optimizer's coverage score of any fixed `(h, v)` candidate is
monotone nondecreasing in the peak intensity (target box, configuration,
spectral factor, beam pattern and threshold held fixed). -/
theorem C8_coverage_monotone_in_peak (W H R : ℝ) (cfg : List (ℝ × ℝ))
    (peak peak' sf threshold : ℝ) (beamPattern : List (BeamPoint ℝ))
    (h0 : 0 ≤ peak) (hpp : peak ≤ peak') (hsf : 0 ≤ sf) :
    optimizerCoverage W H R cfg peak sf beamPattern threshold ≤
      optimizerCoverage W H R cfg peak' sf beamPattern threshold := by
  unfold optimizerCoverage optCoverage
  have hhits : optHits (optSamples W H R)
      (totalIlluminance cfg peak sf beamPattern) threshold ≤
      optHits (optSamples W H R)
        (totalIlluminance cfg peak' sf beamPattern) threshold := by
    unfold optHits
    apply countP_mono_of_imp
    intro pt _ hp
    have h1 := of_decide_eq_true hp
    exact decide_eq_true
      (le_trans h1 (totalIlluminance_mono_peak cfg sf beamPattern pt peak peak'
        hsf hpp))
  have hcast : ((optHits (optSamples W H R)
      (totalIlluminance cfg peak sf beamPattern) threshold : ℕ) : ℝ) ≤
      ((optHits (optSamples W H R)
        (totalIlluminance cfg peak' sf beamPattern) threshold : ℕ) : ℝ) :=
    Nat.cast_le.mpr hhits
  apply mul_le_mul_of_nonneg_right _ (by norm_num : (0 : ℝ) ≤ 100)
  have hlen200 : (((optSamples W H R).length : ℕ) : ℝ) = 200 := by
    rw [show (optSamples W H R).length = 200 from rfl]
    norm_num
  rw [hlen200]
  exact (div_le_div_right (by norm_num)).mpr hcast

/-- Witness for C8 at a concrete configuration, peak 1 vs peak 2. -/
theorem C8_coverage_monotone_in_peak_witness :
    optimizerCoverage 1 1 1 [(0, 0)] 1 1 [⟨0, 1⟩] 1 ≤
      optimizerCoverage 1 1 1 [(0, 0)] 2 1 [⟨0, 1⟩] 1 :=
  C8_coverage_monotone_in_peak 1 1 1 [(0, 0)] 1 2 1 1 [⟨0, 1⟩]
    (by norm_num) (by norm_num) (by norm_num)

/-- Every cell configuration produced by the corner tests is below 16. -/
theorem cellConfig_lt_16 (g : GridData) (threshold : ℚ) (gx gy : ℕ) :
    cellConfig g threshold gx gy < 16 := by
  unfold cellConfig
  split_ifs <;> decide

/-- Within one cell, the connection table mentions each edge key at most
once across all connection endpoints (the two saddle pairs use four
distinct keys; every single pair has distinct components). -/
theorem cellNbrs_length_le_one (gx gy cfg : ℕ) (hcfg : cfg < 16) (k : EdgeKey) :
    ((cellConnections gx gy cfg).flatMap (nbrContrib k)).length ≤ 1 := by
  interval_cases cfg <;>
    simp only [cellConnections, nbrContrib, List.flatMap_cons, List.flatMap_nil,
      List.append_nil, List.nil_append, List.length_append, List.length_nil] <;>
    first
      | omega
      | (split_ifs <;> subst_vars <;> simp_all)

/-- A cell contributes nothing to the adjacency list of an edge key that is
not one of its four edges. -/
theorem cellNbrs_nil_of_not_mem (gx gy cfg : ℕ) (hcfg : cfg < 16) (k : EdgeKey)
    (hk : k ∉ cellKeys gx gy) :
    (cellConnections gx gy cfg).flatMap (nbrContrib k) = [] := by
  simp only [cellKeys, List.mem_cons, List.not_mem_nil, or_false, not_or] at hk
  obtain ⟨h1, h2, h3, h4⟩ := hk
  interval_cases cfg <;>
    simp [cellConnections, nbrContrib, Ne.symm h1, Ne.symm h2, Ne.symm h3,
      Ne.symm h4]

/-- The only cells having the horizontal edge `H x y` among their edges are
`(x, y)` (as top edge) and `(x, y - 1)` (as bottom edge). -/
theorem cell_of_H (gx gy x y : ℕ) (hk : EdgeKey.H x y ∈ cellKeys gx gy) :
    (gx, gy) = (x, y) ∨ (gx, gy) = (x, y - 1) := by
  simp only [cellKeys, List.mem_cons, List.not_mem_nil, or_false] at hk
  simp only [Prod.mk.injEq]
  rcases hk with h | h | h | h <;>
    simp_all [EdgeKey.H.injEq, EdgeKey.V.injEq]

/-- The only cells having the vertical edge `V x y` among their edges are
`(x, y)` (as left edge) and `(x - 1, y)` (as right edge). -/
theorem cell_of_V (gx gy x y : ℕ) (hk : EdgeKey.V x y ∈ cellKeys gx gy) :
    (gx, gy) = (x, y) ∨ (gx, gy) = (x - 1, y) := by
  simp only [cellKeys, List.mem_cons, List.not_mem_nil, or_false] at hk
  simp only [Prod.mk.injEq]
  rcases hk with h | h | h | h <;>
    simp_all [EdgeKey.H.injEq, EdgeKey.V.injEq]

/-- Both components of every table connection are edges of the cell, and
they are distinct. -/
theorem cellConnections_mem_keys (gx gy cfg : ℕ) (hcfg : cfg < 16)
    (c : EdgeKey × EdgeKey) (hc : c ∈ cellConnections gx gy cfg) :
    c.1 ∈ cellKeys gx gy ∧ c.2 ∈ cellKeys gx gy ∧ c.1 ≠ c.2 := by
  interval_cases cfg <;>
    simp only [cellConnections, List.mem_cons, List.not_mem_nil, or_false] at hc <;>
    first
      | (subst hc; simp [cellKeys])
      | (rcases hc with rfl | rfl <;> simp [cellKeys])

/-- A sum of per-element values each ≤ 1 and vanishing away from two
designated elements is bounded by the two elements' multiplicities. -/
theorem sum_le_count2 {β : Type} [DecidableEq β] (l : List β) (f : β → ℕ)
    (p1 p2 : β) (hle : ∀ c, f c ≤ 1) (hz : ∀ c, c ≠ p1 → c ≠ p2 → f c = 0) :
    (l.map f).sum ≤ l.count p1 + l.count p2 := by
  induction l with
  | nil => simp
  | cons a l ih =>
      simp only [List.map_cons, List.sum_cons, List.count_cons, beq_iff_eq]
      have key : f a ≤ (if a = p1 then 1 else 0) + (if a = p2 then 1 else 0) := by
        have ha := hle a
        by_cases h1 : a = p1
        · simp only [if_pos h1]
          omega
        · by_cases h2 : a = p2
          · simp only [if_pos h2]
            omega
          · simp [h1, h2, hz a h1 h2]
      omega

/-- The row-major cell list has no duplicates. -/
theorem cells_nodup (w h : ℕ) : (cells w h).Nodup := by
  unfold cells
  refine List.nodup_flatMap.mpr ⟨?_, ?_⟩
  · intro gy _
    exact (List.nodup_range _).map (fun a b hab => by
      simpa using congrArg Prod.fst hab)
  · refine List.Pairwise.imp ?_ (List.nodup_range (h - 1))
    intro gy gy' hne
    intro p hp hp'
    simp only [Function.comp, List.mem_map] at hp hp'
    obtain ⟨a, -, rfl⟩ := hp
    obtain ⟨b, -, hb⟩ := hp'
    exact hne (by simpa using (congrArg Prod.snd hb).symm)

/-- Shared degree bound: in the adjacency graph built by `marchSquares`,
every node has degree at most 2.  An edge key is shared by at most two
cells, and each cell's connection table mentions it at most once. -/
theorem degree_le_two (g : GridData) (threshold : ℚ) (k : EdgeKey) :
    degreeKey (allConnections g threshold) k ≤ 2 := by
  unfold degreeKey neighbors allConnections
  rw [List.flatMap_assoc, List.length_flatMap]
  have hle : ∀ c : ℕ × ℕ,
      ((cellConnections c.1 c.2 (cellConfig g threshold c.1 c.2)).flatMap
        (nbrContrib k)).length ≤ 1 :=
    fun c => cellNbrs_length_le_one c.1 c.2 _ (cellConfig_lt_16 g threshold c.1 c.2) k
  have main : ∀ p1 p2 : ℕ × ℕ,
      (∀ c : ℕ × ℕ, c ≠ p1 → c ≠ p2 → k ∉ cellKeys c.1 c.2) →
      (List.map (List.length ∘ fun c : ℕ × ℕ =>
        (cellConnections c.1 c.2 (cellConfig g threshold c.1 c.2)).flatMap
          (nbrContrib k)) (cells g.width g.height)).sum ≤ 2 := by
    intro p1 p2 hfar
    calc (List.map (List.length ∘ fun c : ℕ × ℕ =>
            (cellConnections c.1 c.2 (cellConfig g threshold c.1 c.2)).flatMap
            (nbrContrib k)) (cells g.width g.height)).sum
        ≤ @List.count (ℕ × ℕ) instBEqOfDecidableEq p1 (cells g.width g.height) +
            @List.count (ℕ × ℕ) instBEqOfDecidableEq p2 (cells g.width g.height) := by
          apply sum_le_count2
          · exact fun c => hle c
          · intro c h1 h2
            simp only [Function.comp]
            rw [cellNbrs_nil_of_not_mem c.1 c.2 _
              (cellConfig_lt_16 g threshold c.1 c.2) k (hfar c h1 h2)]
            rfl
      _ ≤ 2 := by
          have h1 := List.nodup_iff_count_le_one.mp
            (cells_nodup g.width g.height) p1
          have h2 := List.nodup_iff_count_le_one.mp
            (cells_nodup g.width g.height) p2
          omega
  cases k with
  | H x y =>
      apply main (x, y) (x, y - 1)
      intro c h1 h2 hmem
      rcases cell_of_H c.1 c.2 x y hmem with h | h
      · exact h1 (by rw [← h])
      · exact h2 (by rw [← h])
  | V x y =>
      apply main (x, y) (x - 1, y)
      intro c h1 h2 hmem
      rcases cell_of_V c.1 c.2 x y hmem with h | h
      · exact h1 (by rw [← h])
      · exact h2 (by rw [← h])

/-- C3: for every grid and threshold, every node of the undirected
adjacency graph built by the marching-squares extractor has degree at
most 2. -/
theorem C3_node_degree_le_two (g : GridData) (threshold : ℚ) (k : EdgeKey) :
    degreeKey (allConnections g threshold) k ≤ 2 :=
  degree_le_two g threshold k

/-! ### Structure of the stitched graph (towards the polyline guarantees) -/

/-- A list of length at most 1 has no duplicates. -/
theorem nodup_of_length_le_one {β : Type} {l : List β} (h : l.length ≤ 1) :
    l.Nodup := by
  rcases l with - | ⟨x, - | ⟨y, t⟩⟩ <;> simp_all

/-- In a list of length ≤ 1 every member equals any given member. -/
theorem mem_of_length_le_one {β : Type} {l : List β} {a : β}
    (h : l.length ≤ 1) (ha : a ∈ l) : ∀ x ∈ l, x = a := by
  rcases l with - | ⟨p, - | ⟨q, t⟩⟩ <;> simp_all

/-- In a list of length ≤ 2 containing two distinct members, every member
is one of the two. -/
theorem mem_of_length_le_two {β : Type} {l : List β} {a b : β}
    (h : l.length ≤ 2) (ha : a ∈ l) (hb : b ∈ l) (hab : a ≠ b) :
    ∀ x ∈ l, x = a ∨ x = b := by
  rcases l with - | ⟨p, - | ⟨q, - | ⟨r, t⟩⟩⟩
  · simp at ha
  · intro x hx
    simp only [List.mem_cons, List.not_mem_nil, or_false] at ha hb hx
    exact absurd (ha.trans hb.symm) hab
  · intro x hx
    simp only [List.mem_cons, List.not_mem_nil, or_false] at ha hb hx
    rcases ha with rfl | rfl <;> rcases hb with rfl | rfl <;> tauto
  · simp only [List.length_cons] at h
    omega

/-- A duplicate-free list whose head and last element coincide is a
singleton. -/
theorem nodup_head_getLast_eq {β : Type} {l : List β} {t : β}
    (hnd : l.Nodup) (hh : l.head? = some t) (hl : l.getLast? = some t) :
    l = [t] := by
  rcases l with - | ⟨h, rest⟩
  · simp at hh
  · simp only [List.head?_cons, Option.some.injEq] at hh
    rcases rest with - | ⟨r, rest'⟩
    · rw [hh]
    · exfalso
      rw [List.getLast?_cons_cons] at hl
      obtain ⟨hne, hte⟩ := List.mem_getLast?_eq_getLast hl
      have htm : t ∈ r :: rest' := hte ▸ List.getLast_mem hne
      simp only [List.nodup_cons] at hnd
      apply hnd.1
      rw [hh]
      exact htm

/-- Two distinct cells share at most one edge key. -/
theorem cellKeys_inter (a b c d : ℕ) (hne : (a, b) ≠ (c, d)) (u v : EdgeKey)
    (hu1 : u ∈ cellKeys a b) (hu2 : u ∈ cellKeys c d)
    (hv1 : v ∈ cellKeys a b) (hv2 : v ∈ cellKeys c d) : u = v := by
  have hne' : ¬(a = c ∧ b = d) := by
    intro hcd
    exact hne (by rw [hcd.1, hcd.2])
  simp only [cellKeys, List.mem_cons, List.not_mem_nil, or_false] at hu1 hu2 hv1 hv2
  rcases hu1 with rfl | rfl | rfl | rfl <;>
    rcases hv1 with rfl | rfl | rfl | rfl <;>
    simp_all [EdgeKey.H.injEq, EdgeKey.V.injEq] <;>
    omega

/-- Membership in one connection's contribution to `adj k`. -/
theorem mem_nbrContrib {y k : EdgeKey} {c : EdgeKey × EdgeKey} :
    y ∈ nbrContrib k c ↔ (c.1 = k ∧ c.2 = y) ∨ (c.2 = k ∧ c.1 = y) := by
  unfold nbrContrib
  split_ifs <;> simp_all <;> tauto

/-- Membership in an adjacency list is membership of the corresponding
(ordered either way) connection. -/
theorem mem_neighbors_iff {conns : List (EdgeKey × EdgeKey)} {k y : EdgeKey} :
    y ∈ neighbors conns k ↔ (k, y) ∈ conns ∨ (y, k) ∈ conns := by
  unfold neighbors
  rw [List.mem_flatMap]
  constructor
  · rintro ⟨c, hc, hy⟩
    rcases mem_nbrContrib.mp hy with ⟨h1, h2⟩ | ⟨h1, h2⟩
    · left
      have hce : c = (k, y) := by
        rw [← h1, ← h2]
      exact hce ▸ hc
    · right
      have hce : c = (y, k) := by
        rw [← h1, ← h2]
      exact hce ▸ hc
  · rintro (h | h)
    · exact ⟨(k, y), h, mem_nbrContrib.mpr (Or.inl ⟨rfl, rfl⟩)⟩
    · exact ⟨(y, k), h, mem_nbrContrib.mpr (Or.inr ⟨rfl, rfl⟩)⟩

/-- The adjacency relation is symmetric (`addConnection` pushes both
directions). -/
theorem neighbors_symm {conns : List (EdgeKey × EdgeKey)} {k y : EdgeKey}
    (h : y ∈ neighbors conns k) : k ∈ neighbors conns y := by
  rcases mem_neighbors_iff.mp h with h' | h'
  · exact mem_neighbors_iff.mpr (Or.inr h')
  · exact mem_neighbors_iff.mpr (Or.inl h')

/-- Every connection of the graph pass comes from some cell. -/
theorem mem_allConnections_elim {g : GridData} {threshold : ℚ}
    {c : EdgeKey × EdgeKey} (hc : c ∈ allConnections g threshold) :
    ∃ cell ∈ cells g.width g.height,
      c ∈ cellConnections cell.1 cell.2 (cellConfig g threshold cell.1 cell.2) := by
  unfold allConnections at hc
  exact List.mem_flatMap.mp hc

/-- Connections never join an edge to itself. -/
theorem allConnections_ne {g : GridData} {threshold : ℚ}
    {c : EdgeKey × EdgeKey} (hc : c ∈ allConnections g threshold) :
    c.1 ≠ c.2 := by
  obtain ⟨cell, -, hmem⟩ := mem_allConnections_elim hc
  exact (cellConnections_mem_keys cell.1 cell.2 _
    (cellConfig_lt_16 g threshold cell.1 cell.2) c hmem).2.2

/-- No node is its own neighbor. -/
theorem self_not_mem_neighbors (g : GridData) (threshold : ℚ) (k : EdgeKey) :
    k ∉ neighbors (allConnections g threshold) k := by
  intro h
  rcases mem_neighbors_iff.mp h with h' | h' <;>
    exact allConnections_ne h' rfl

/-- What one cell contributes to the adjacency list of `k`: both `k` and
the contributed neighbor are edges of that cell, and they differ. -/
theorem mem_cellNbrs_elim {gx gy cfg : ℕ} (hcfg : cfg < 16) {y k : EdgeKey}
    (hy : y ∈ (cellConnections gx gy cfg).flatMap (nbrContrib k)) :
    k ∈ cellKeys gx gy ∧ y ∈ cellKeys gx gy ∧ y ≠ k := by
  obtain ⟨conn, hconn, hyc⟩ := List.mem_flatMap.mp hy
  have hprops := cellConnections_mem_keys gx gy cfg hcfg conn hconn
  rcases mem_nbrContrib.mp hyc with ⟨h1, h2⟩ | ⟨h1, h2⟩
  · exact ⟨h1 ▸ hprops.1, h2 ▸ hprops.2.1, fun he => hprops.2.2 (by rw [h1, ← he, h2])⟩
  · exact ⟨h1 ▸ hprops.2.1, h2 ▸ hprops.1, fun he => hprops.2.2 (by rw [h2, he, h1])⟩

/-- Adjacency lists contain no duplicates: each unordered connection pair
appears once, because within one cell the table mentions `k` at most once
and two distinct cells share at most the edge `k` itself. -/
theorem neighbors_nodup (g : GridData) (threshold : ℚ) (k : EdgeKey) :
    (neighbors (allConnections g threshold) k).Nodup := by
  unfold neighbors allConnections
  rw [List.flatMap_assoc]
  refine List.nodup_flatMap.mpr ⟨?_, ?_⟩
  · intro cell _
    exact nodup_of_length_le_one
      (cellNbrs_length_le_one cell.1 cell.2 _
        (cellConfig_lt_16 g threshold cell.1 cell.2) k)
  · refine (cells_nodup g.width g.height).imp ?_
    intro c c' hne y hy hy'
    have h1 := mem_cellNbrs_elim (cellConfig_lt_16 g threshold c.1 c.2) hy
    have h2 := mem_cellNbrs_elim (cellConfig_lt_16 g threshold c'.1 c'.2) hy'
    have hpair : (c.1, c.2) ≠ (c'.1, c'.2) := by
      intro he
      exact hne (by rw [← Prod.mk.eta (p := c), ← Prod.mk.eta (p := c'), he])
    exact h1.2.2 (cellKeys_inter c.1 c.2 c'.1 c'.2 hpair y k h1.2.1 h2.2.1 h1.1 h2.1)

/-- Membership in the fold that reconstructs `adj`'s key insertion order. -/
theorem mem_foldl_insert (l : List EdgeKey) (acc : List EdgeKey) (x : EdgeKey) :
    x ∈ l.foldl (fun acc k => if k ∈ acc then acc else acc ++ [k]) acc ↔
      x ∈ acc ∨ x ∈ l := by
  induction l generalizing acc with
  | nil => simp
  | cons a l ih =>
      rw [List.foldl_cons]
      by_cases ha : a ∈ acc
      · rw [if_pos ha, ih]
        simp only [List.mem_cons]
        constructor
        · tauto
        · rintro (h | rfl | h)
          · tauto
          · exact Or.inl ha
          · tauto
      · rw [if_neg ha, ih]
        simp only [List.mem_append, List.mem_singleton, List.mem_cons]
        tauto

/-- A key is in the `adj` map iff it occurs in some connection. -/
theorem mem_insertionKeys {conns : List (EdgeKey × EdgeKey)} {x : EdgeKey} :
    x ∈ insertionKeys conns ↔ x ∈ conns.flatMap (fun c => [c.1, c.2]) := by
  unfold insertionKeys
  rw [mem_foldl_insert]
  simp

/-- Neighbors of any node are themselves keys of the `adj` map. -/
theorem mem_neighbors_mem_keys {conns : List (EdgeKey × EdgeKey)}
    {k y : EdgeKey} (h : y ∈ neighbors conns k) : y ∈ insertionKeys conns := by
  rw [mem_insertionKeys, List.mem_flatMap]
  rcases mem_neighbors_iff.mp h with h' | h'
  · exact ⟨(k, y), h', by simp⟩
  · exact ⟨(y, k), h', by simp⟩

/-- Every key of the `adj` map has a nonempty adjacency list. -/
theorem neighbors_ne_nil {conns : List (EdgeKey × EdgeKey)} {k : EdgeKey}
    (h : k ∈ insertionKeys conns) : neighbors conns k ≠ [] := by
  rw [mem_insertionKeys, List.mem_flatMap] at h
  obtain ⟨c, hc, hk⟩ := h
  simp only [List.mem_cons, List.not_mem_nil, or_false] at hk
  rcases hk with rfl | rfl
  · have : c.2 ∈ neighbors conns c.1 :=
      mem_neighbors_iff.mpr (Or.inl (by rwa [Prod.mk.eta]))
    exact List.ne_nil_of_mem this
  · have : c.1 ∈ neighbors conns c.2 :=
      mem_neighbors_iff.mpr (Or.inr (by rwa [Prod.mk.eta]))
    exact List.ne_nil_of_mem this

/-- Visiting a fresh key strictly shrinks the unvisited-key count. -/
theorem filter_unvisited_dec (keys visited : List EdgeKey) (c : EdgeKey)
    (hc : c ∈ keys) (hcv : c ∉ visited) :
    (keys.filter (fun x => decide (x ∉ c :: visited))).length <
      (keys.filter (fun x => decide (x ∉ visited))).length := by
  have hmono : ∀ l : List EdgeKey,
      (l.filter (fun x => decide (x ∉ c :: visited))).length ≤
        (l.filter (fun x => decide (x ∉ visited))).length := by
    intro l
    rw [← List.countP_eq_length_filter, ← List.countP_eq_length_filter]
    apply countP_mono_of_imp
    intro a _ hp
    simp only [decide_eq_true_eq, List.mem_cons, not_or] at hp ⊢
    exact hp.2
  induction keys with
  | nil => simp at hc
  | cons a keys ih =>
      rw [List.filter_cons, List.filter_cons]
      by_cases hac : a = c
      · subst hac
        rw [if_neg (by simp), if_pos (by simpa using hcv)]
        have := hmono keys
        simp only [List.length_cons]
        omega
      · rcases List.mem_cons.mp hc with heq | hck
        · exact absurd heq.symm hac
        · by_cases hav : a ∈ visited
          · rw [if_neg (by simp [hav]), if_neg (by simpa using hav)]
            exact ih hck
          · rw [if_pos (by simp [hac, hav]), if_pos (by simpa using hav)]
            simp only [List.length_cons]
            have := ih hck
            omega

/-- Structure of one `trace` walk: starting from an unvisited key with
sufficient fuel, the produced path starts at the start key, repeats no
node, consists of previously unvisited keys, steps along adjacency lists,
accounts exactly for the new visited set, and terminates only at a node
all of whose neighbors end up visited. -/
theorem traceAux_spec (adjF : EdgeKey → List EdgeKey) (keys : List EdgeKey)
    (hsub : ∀ k, ∀ y ∈ adjF k, y ∈ keys) :
    ∀ (fuel : ℕ) (visited : List EdgeKey) (c : EdgeKey),
      c ∉ visited → c ∈ keys →
      (keys.filter (fun x => decide (x ∉ visited))).length < fuel →
      (traceAux adjF fuel visited c).1.head? = some c ∧
      (traceAux adjF fuel visited c).1.Nodup ∧
      (∀ x ∈ (traceAux adjF fuel visited c).1, x ∉ visited ∧ x ∈ keys) ∧
      List.Chain' (fun a b => b ∈ adjF a) (traceAux adjF fuel visited c).1 ∧
      (∀ x, x ∈ (traceAux adjF fuel visited c).2 ↔
        x ∈ (traceAux adjF fuel visited c).1 ∨ x ∈ visited) ∧
      (∀ t, (traceAux adjF fuel visited c).1.getLast? = some t →
        ∀ y ∈ adjF t, y ∈ (traceAux adjF fuel visited c).2) := by
  intro fuel
  induction fuel with
  | zero =>
      intro visited c _ _ hfuel
      exact absurd hfuel (Nat.not_lt_zero _)
  | succ fuel ih =>
      intro visited c hcv hck hfuel
      cases hfind : (adjF c).find? (fun k => decide (k ∉ c :: visited)) with
      | none =>
          have heq : traceAux adjF (fuel + 1) visited c = ([c], c :: visited) := by
            rw [traceAux, if_neg hcv]
            simp only [hfind]
          rw [heq]
          refine ⟨rfl, by simp, ?_, ?_, ?_, ?_⟩
          · intro x hx
            simp only [List.mem_singleton] at hx
            exact hx ▸ ⟨hcv, hck⟩
          · simp
          · intro x
            simp [List.mem_cons, or_comm]
          · intro t ht y hy
            simp only [List.getLast?_singleton, Option.some.injEq] at ht
            subst ht
            have hnn := List.find?_eq_none.mp hfind y hy
            simp only [decide_eq_true_eq, not_not] at hnn
            exact hnn
      | some nxt =>
          have hmem : nxt ∈ adjF c := List.mem_of_find?_eq_some hfind
          have hnv : nxt ∉ c :: visited := by
            have := List.find?_some hfind
            simpa using this
          have hnk : nxt ∈ keys := hsub c nxt hmem
          have hfuel' : ((keys.filter
              (fun x => decide (x ∉ c :: visited))).length) < fuel := by
            have hdec := filter_unvisited_dec keys visited c hck hcv
            omega
          obtain ⟨ihh, ihnd, ihel, ihch, ihv, ihterm⟩ :=
            ih (c :: visited) nxt hnv hnk hfuel'
          have heq : traceAux adjF (fuel + 1) visited c =
              (c :: (traceAux adjF fuel (c :: visited) nxt).1,
               (traceAux adjF fuel (c :: visited) nxt).2) := by
            rw [traceAux, if_neg hcv]
            simp only [hfind]
          rw [heq]
          have hrne : (traceAux adjF fuel (c :: visited) nxt).1 ≠ [] := by
            intro hnil
            rw [hnil] at ihh
            simp at ihh
          refine ⟨rfl, ?_, ?_, ?_, ?_, ?_⟩
          · refine List.nodup_cons.mpr ⟨?_, ihnd⟩
            intro hcr
            have := (ihel c hcr).1
            simp at this
          · intro x hx
            rcases List.mem_cons.mp hx with rfl | hx'
            · exact ⟨hcv, hck⟩
            · have := ihel x hx'
              refine ⟨?_, this.2⟩
              intro hxv
              exact this.1 (List.mem_cons_of_mem _ hxv)
          · refine List.chain'_cons'.mpr ⟨?_, ihch⟩
            intro h hh
            rw [ihh] at hh
            simp only [Option.mem_def, Option.some.injEq] at hh
            exact hh ▸ hmem
          · intro x
            rw [ihv x]
            simp only [List.mem_cons]
            tauto
          · intro t ht y hy
            rcases hlist : (traceAux adjF fuel (c :: visited) nxt).1 with - | ⟨h1, t1⟩
            · exact absurd hlist hrne
            · rw [hlist, List.getLast?_cons_cons] at ht
              rw [hlist] at ihterm
              exact ihterm t ht y hy

/-- Core of the invariant preservation at a degree-2 walk start: if a
maximal walk `path` in a simple graph of maximum degree 2 starts at `s`,
ends at a degree-2 node `t` all of whose neighbors lie on the path, and
some neighbor `u` of `s` avoids the path, a contradiction follows. -/
theorem walk_start_neighbors_on_path (adjF : EdgeKey → List EdgeKey)
    (hsym : ∀ k y, y ∈ adjF k → k ∈ adjF y)
    (hdeg : ∀ k, (adjF k).length ≤ 2)
    (hnodup : ∀ k, (adjF k).Nodup)
    (hself : ∀ k, k ∉ adjF k)
    (path : List EdgeKey) (s t u : EdgeKey)
    (hnd : path.Nodup)
    (hch : List.Chain' (fun a b => b ∈ adjF a) path)
    (hhead : path.head? = some s)
    (hlast : path.getLast? = some t)
    (hsubt : ∀ y ∈ adjF t, y ∈ path)
    (hlen2 : 2 ≤ path.length)
    (hdegt : (adjF t).length = 2)
    (hu : u ∈ adjF s) (hup : u ∉ path) : False := by
  obtain ⟨l₂, rfl⟩ : ∃ l₂, path = s :: l₂ := by
    rcases path with - | ⟨a, l⟩
    · simp at hhead
    · simp only [List.head?_cons, Option.some.injEq] at hhead
      exact ⟨l, by rw [hhead]⟩
  rcases l₂ with - | ⟨x₁, l₂'⟩
  · simp at hlen2
  have htpath : t ∈ s :: x₁ :: l₂' := by
    obtain ⟨hne, hte⟩ := List.mem_getLast?_eq_getLast hlast
    exact hte ▸ List.getLast_mem hne
  -- second walk node x₁ is a neighbor of s
  have hx₁ : x₁ ∈ adjF s := by
    have := (List.chain'_cons'.mp hch).1
    simpa using this x₁ rfl
  have hux₁ : u ≠ x₁ := fun he => hup (he ▸ (by simp : x₁ ∈ s :: x₁ :: l₂'))
  -- decompose path as init ++ [t]
  have hpne : (s :: x₁ :: l₂' : List EdgeKey) ≠ [] := by simp
  have hsplit : (s :: x₁ :: l₂').dropLast ++ [(s :: x₁ :: l₂').getLast hpne] =
      s :: x₁ :: l₂' := List.dropLast_append_getLast hpne
  have htval : (s :: x₁ :: l₂').getLast hpne = t := by
    have h1 : (s :: x₁ :: l₂').getLast? = some ((s :: x₁ :: l₂').getLast hpne) :=
      List.getLast?_eq_getLast _ hpne
    rw [hlast] at h1
    exact ((Option.some.injEq _ _).mp h1).symm
  rw [htval] at hsplit
  have hinit_ne : (s :: x₁ :: l₂').dropLast ≠ [] := by
    rcases l₂' with - | ⟨a, l⟩ <;> simp
  have hinitlast : (s :: x₁ :: l₂').dropLast.getLast? =
      some ((s :: x₁ :: l₂').dropLast.getLast hinit_ne) :=
    List.getLast?_eq_getLast _ hinit_ne
  -- the node before t is a neighbor of t
  have hpred : t ∈ adjF ((s :: x₁ :: l₂').dropLast.getLast hinit_ne) := by
    have hch2 : List.Chain' (fun a b => b ∈ adjF a)
        ((s :: x₁ :: l₂').dropLast ++ [t]) := by
      rw [hsplit]
      exact hch
    exact (List.chain'_append.mp hch2).2.2
      ((s :: x₁ :: l₂').dropLast.getLast hinit_ne) hinitlast t rfl
  have hpred' : (s :: x₁ :: l₂').dropLast.getLast hinit_ne ∈ adjF t :=
    hsym _ t hpred
  -- adjF t has exactly two distinct elements α ≠ β
  obtain ⟨α, β, hadjt⟩ : ∃ α β, adjF t = [α, β] := by
    rcases hl : adjF t with - | ⟨α, - | ⟨β, - | ⟨γ, rest⟩⟩⟩
    · rw [hl] at hdegt
      simp only [List.length_nil] at hdegt
      omega
    · rw [hl] at hdegt
      simp only [List.length_cons, List.length_nil] at hdegt
      omega
    · exact ⟨α, β, rfl⟩
    · rw [hl] at hdegt
      simp only [List.length_cons] at hdegt
      omega
  have hαβ : α ≠ β := by
    have hn := hnodup t
    rw [hadjt] at hn
    simp only [List.nodup_cons, List.mem_singleton, List.not_mem_nil,
      not_false_iff, and_true] at hn
    exact hn.1
  -- pick q, the element of adjF t other than the predecessor of t
  have hqex : ∃ q, q ∈ adjF t ∧
      q ≠ (s :: x₁ :: l₂').dropLast.getLast hinit_ne := by
    rw [hadjt] at hpred' ⊢
    simp only [List.mem_cons, List.not_mem_nil, or_false] at hpred' ⊢
    rcases hpred' with hα | hβ
    · exact ⟨β, Or.inr rfl, fun he => hαβ (he.trans hα).symm⟩
    · exact ⟨α, Or.inl rfl, fun he => hαβ (he.trans hβ)⟩
  obtain ⟨q, hqt, hqp⟩ := hqex
  have htq : t ∈ adjF q := hsym t q hqt
  have hqpath : q ∈ s :: x₁ :: l₂' := hsubt q hqt
  obtain ⟨m₁, m₂, hm⟩ := List.append_of_mem hqpath
  rcases m₂ with - | ⟨w, m₂'⟩
  · -- q is the last node: then q = t, giving a self-loop
    have hqlast : (m₁ ++ [q]).getLast? = some t := by
      rw [← hm]
      exact hlast
    rw [List.getLast?_concat] at hqlast
    have hqt' : q = t := by simpa using hqlast
    exact hself t (hqt' ▸ hqt)
  rcases m₁ with - | ⟨z, m₁'⟩
  · -- q is the head: q = s, so t is a neighbor of s
    simp only [List.nil_append] at hm
    have hqs : s = q := by
      have := congrArg List.head? hm
      simpa using this
    have hts : t ∈ adjF s := by
      rw [hqs]
      exact htq
    have htux : t = u ∨ t = x₁ :=
      mem_of_length_le_two (hdeg s) hu hx₁ hux₁ t hts
    rcases htux with rfl | rfl
    · -- t = u: but t lies on the path and u does not
      exact hup htpath
    · -- t = x₁: then the tail is the singleton [t] and the path is [s, t]
      have htl : (t :: l₂' : List EdgeKey) = [t] := by
        apply nodup_head_getLast_eq ((List.nodup_cons.mp hnd).2)
        · rfl
        · rw [List.getLast?_cons_cons] at hlast
          exact hlast
      have hl₂' : l₂' = [] := by
        injection htl
      subst hl₂'
      -- adjF t ⊆ [s, t], has two distinct elements, none equal to t
      have hαm : α ∈ adjF t := by rw [hadjt]; simp
      have hβm : β ∈ adjF t := by rw [hadjt]; simp
      have hαs : α = s := by
        rcases List.mem_cons.mp (hsubt α hαm) with h | h
        · exact h
        · exfalso
          simp only [List.mem_singleton, List.not_mem_nil, or_false] at h
          exact hself t (h ▸ hαm)
      have hβs : β = s := by
        rcases List.mem_cons.mp (hsubt β hβm) with h | h
        · exact h
        · exfalso
          simp only [List.mem_singleton, List.not_mem_nil, or_false] at h
          exact hself t (h ▸ hβm)
      exact hαβ (hαs.trans hβs.symm)
  · -- q is interior: its neighborhood is exactly its two walk neighbors
    have hm' : (s :: x₁ :: l₂' : List EdgeKey) = (z :: m₁') ++ q :: w :: m₂' := hm
    have hndm : ((z :: m₁') ++ q :: w :: m₂' : List EdgeKey).Nodup := hm' ▸ hnd
    have hchm : List.Chain' (fun a b => b ∈ adjF a)
        ((z :: m₁') ++ q :: w :: m₂') := hm' ▸ hch
    have hlastm : ((z :: m₁') ++ q :: w :: m₂' : List EdgeKey).getLast? =
        some t := hm' ▸ hlast
    have hdisj : List.Disjoint (z :: m₁') (q :: w :: m₂') :=
      (List.nodup_append.mp hndm).2.2
    -- predecessor of q
    have hm₁ne : (z :: m₁' : List EdgeKey) ≠ [] := by simp
    have hpq : q ∈ adjF ((z :: m₁').getLast hm₁ne) :=
      (List.chain'_append.mp hchm).2.2 _ (List.getLast?_eq_getLast _ hm₁ne) q rfl
    have hpq' : (z :: m₁').getLast hm₁ne ∈ adjF q := hsym _ _ hpq
    -- successor of q
    have hwq : w ∈ adjF q := by
      have := (List.chain'_cons'.mp (List.chain'_append.mp hchm).2.1).1
      simpa using this w rfl
    have hpw : (z :: m₁').getLast hm₁ne ≠ w := by
      intro he
      exact hdisj (he ▸ List.getLast_mem hm₁ne) (by simp)
    have htpos : t = (z :: m₁').getLast hm₁ne ∨ t = w :=
      mem_of_length_le_two (hdeg q) hpq' hwq hpw t htq
    rcases htpos with hteq | hteq
    · -- t would lie in the strict prefix, but t is the last node
      have htin₂ : t ∈ q :: w :: m₂' := by
        have h1 : (q :: w :: m₂' : List EdgeKey).getLast? = some t := by
          rw [← List.getLast?_append_of_ne_nil (z :: m₁') (by simp), ← hm']
          exact hlast
        obtain ⟨hne, hte⟩ := List.mem_getLast?_eq_getLast h1
        exact hte ▸ List.getLast_mem hne
      exact hdisj (hteq ▸ List.getLast_mem hm₁ne) htin₂
    · -- t = w: then m₂' = [] and q is the predecessor of t
      subst hteq
      have hm₂nil : (t :: m₂' : List EdgeKey) = [t] := by
        apply nodup_head_getLast_eq
        · have := (List.nodup_append.mp hndm).2.1
          exact (List.nodup_cons.mp this).2
        · rfl
        · have h9 : ((z :: m₁') ++ q :: t :: m₂' : List EdgeKey).getLast? =
              (t :: m₂').getLast? := by
            rw [List.getLast?_append_of_ne_nil _ (by simp),
              List.getLast?_cons_cons]
          rw [← h9]
          exact hlastm
      have hm₂' : m₂' = [] := by
        injection hm₂nil
      subst hm₂'
      -- now path = ((z :: m₁') ++ [q]) ++ [t], so the predecessor of t is q
      have hpathq : (s :: x₁ :: l₂' : List EdgeKey) =
          ((z :: m₁') ++ [q]) ++ [t] := by
        rw [hm']
        simp
      have hdrop : (s :: x₁ :: l₂' : List EdgeKey).dropLast = (z :: m₁') ++ [q] := by
        rw [hpathq]
        exact List.dropLast_concat
      have : (s :: x₁ :: l₂').dropLast.getLast hinit_ne = q := by
        have h2 : (s :: x₁ :: l₂').dropLast.getLast? = some q := by
          rw [hdrop, List.getLast?_concat]
        rw [hinitlast] at h2
        exact ((Option.some.injEq _ _).mp h2)
      exact hqp this.symm

/-- One `trace` call from a well-conditioned start key produces a path of
at least two nodes and preserves the separation invariant: unvisited
nodes keep all their neighbors unvisited. -/
theorem trace_preserves (adjF : EdgeKey → List EdgeKey) (keys : List EdgeKey)
    (hsub : ∀ k, ∀ y ∈ adjF k, y ∈ keys)
    (hsym : ∀ k y, y ∈ adjF k → k ∈ adjF y)
    (hdeg : ∀ k, (adjF k).length ≤ 2)
    (hnodup : ∀ k, (adjF k).Nodup)
    (hself : ∀ k, k ∉ adjF k)
    (fuel : ℕ) (visited : List EdgeKey) (s : EdgeKey)
    (hfuel : (keys.filter (fun x => decide (x ∉ visited))).length < fuel)
    (hsv : s ∉ visited) (hsk : s ∈ keys)
    (hinv : ∀ u ∈ keys, u ∉ visited → ∀ v ∈ adjF u, v ∉ visited)
    (hdegs : (adjF s).length = 1 ∨
      ((adjF s).length = 2 ∧ ∀ u ∈ keys, u ∉ visited → (adjF u).length = 2)) :
    2 ≤ (traceAux adjF fuel visited s).1.length ∧
    (∀ u ∈ keys, u ∉ (traceAux adjF fuel visited s).2 →
      ∀ v ∈ adjF u, v ∉ (traceAux adjF fuel visited s).2) ∧
    (∀ x, x ∈ (traceAux adjF fuel visited s).2 ↔
      x ∈ (traceAux adjF fuel visited s).1 ∨ x ∈ visited) := by
  obtain ⟨hh, hnd, hel, hch, hv, hterm⟩ :=
    traceAux_spec adjF keys hsub fuel visited s hsv hsk hfuel
  have hpne : (traceAux adjF fuel visited s).1 ≠ [] := by
    intro h
    rw [h] at hh
    simp at hh
  have hdegs1 : 1 ≤ (adjF s).length := by
    rcases hdegs with h | ⟨h, -⟩ <;> omega
  have hadjne : adjF s ≠ [] := by
    intro h
    rw [h] at hdegs1
    simp at hdegs1
  -- path length at least 2
  have hlen2 : 2 ≤ (traceAux adjF fuel visited s).1.length := by
    by_contra hlt
    push_neg at hlt
    have h1 : (traceAux adjF fuel visited s).1.length = 1 := by
      have := List.length_pos.mpr hpne
      omega
    obtain ⟨a, hpa⟩ := List.length_eq_one.mp h1
    have has : a = s := by
      rw [hpa] at hh
      simpa using hh
    subst has
    rw [hpa] at hterm
    obtain ⟨y, hy⟩ := List.exists_mem_of_ne_nil _ hadjne
    have hyv := hterm a (by simp) y hy
    rcases (hv y).mp hyv with hyp | hyv'
    · rw [hpa] at hyp
      simp only [List.mem_singleton] at hyp
      exact hself a (hyp ▸ hy)
    · exact hinv a hsk hsv y hy hyv'
  refine ⟨hlen2, ?_, hv⟩
  -- the separation invariant after the trace
  intro u huk huv' v hvadj hvin
  have hu_not_vis : u ∉ visited := fun h => huv' ((hv u).mpr (Or.inr h))
  have hu_not_path : u ∉ (traceAux adjF fuel visited s).1 :=
    fun h => huv' ((hv u).mpr (Or.inl h))
  rcases (hv v).mp hvin with hvp | hvv
  swap
  · exact hinv u huk hu_not_vis v hvadj hvv
  have huadj : u ∈ adjF v := hsym u v hvadj
  obtain ⟨l₁, l₂, hsplit⟩ := List.append_of_mem hvp
  rcases l₂ with - | ⟨w, l₂'⟩
  · -- v is the last node of the path: all its neighbors are visited
    have hvl : (traceAux adjF fuel visited s).1.getLast? = some v := by
      rw [hsplit]
      exact List.getLast?_concat _
    exact huv' (hterm v hvl u huadj)
  rcases l₁ with - | ⟨z, l₁'⟩
  · -- v is the start node s
    have hvs : s = v := by
      have h0 := hh
      rw [hsplit] at h0
      have h1 : v = s := by simpa using h0
      exact h1.symm
    have huadjs : u ∈ adjF s := by
      rw [hvs]
      exact huadj
    -- the walk's second node
    have hw : w ∈ adjF s := by
      rw [hvs]
      have hch' := hch
      rw [hsplit] at hch'
      have := (List.chain'_cons'.mp hch').1
      simpa using this w rfl
    have huw : u ≠ w := by
      intro he
      apply hu_not_path
      rw [hsplit, he]
      simp
    rcases hdegs with hd1 | ⟨hd2, hH2⟩
    · -- degree 1: u and w are two distinct neighbors, impossible
      exact huw (mem_of_length_le_one hd1.le hw u huadjs)
    · -- degree 2: apply the walk-start core lemma
      have hlast : ∃ t, (traceAux adjF fuel visited s).1.getLast? = some t := by
        rcases hgl : (traceAux adjF fuel visited s).1.getLast? with - | t
        · rw [List.getLast?_eq_none_iff] at hgl
          exact absurd hgl hpne
        · exact ⟨t, rfl⟩
      obtain ⟨t, ht⟩ := hlast
      have htpath : t ∈ (traceAux adjF fuel visited s).1 := by
        obtain ⟨hne, hte⟩ := List.mem_getLast?_eq_getLast ht
        exact hte ▸ List.getLast_mem hne
      have htk : t ∈ keys := (hel t htpath).2
      have htnv : t ∉ visited := (hel t htpath).1
      have hdegt : (adjF t).length = 2 := hH2 t htk htnv
      have hsubt : ∀ y ∈ adjF t, y ∈ (traceAux adjF fuel visited s).1 := by
        intro y hy
        rcases (hv y).mp (hterm t ht y hy) with h | h
        · exact h
        · exact absurd h (hinv t htk htnv y hy)
      exact walk_start_neighbors_on_path adjF hsym hdeg hnodup hself
        (traceAux adjF fuel visited s).1 s t u hnd hch hh ht hsubt hlen2
        hdegt huadjs hu_not_path
  · -- v is interior: its neighborhood is its two walk neighbors
    have hndp := hnd
    have hchp := hch
    rw [hsplit] at hndp hchp
    have hm₁ne : (z :: l₁' : List EdgeKey) ≠ [] := by simp
    have hpv : v ∈ adjF ((z :: l₁').getLast hm₁ne) :=
      (List.chain'_append.mp hchp).2.2 _ (List.getLast?_eq_getLast _ hm₁ne) v rfl
    have hpv' : (z :: l₁').getLast hm₁ne ∈ adjF v := hsym _ v hpv
    have hwv : w ∈ adjF v := by
      have := (List.chain'_cons'.mp (List.chain'_append.mp hchp).2.1).1
      simpa using this w rfl
    have hdisj : List.Disjoint (z :: l₁') (v :: w :: l₂') :=
      (List.nodup_append.mp hndp).2.2
    have hpw : (z :: l₁').getLast hm₁ne ≠ w := by
      intro he
      exact hdisj (he ▸ List.getLast_mem hm₁ne) (by simp)
    have := mem_of_length_le_two (hdeg v) hpv' hwv hpw u huadj
    rcases this with rfl | rfl
    · apply hu_not_path
      rw [hsplit]
      have hm := List.getLast_mem hm₁ne
      simp only [List.mem_cons, List.mem_append] at hm ⊢
      tauto
    · apply hu_not_path
      rw [hsplit]
      simp

/-- A traversal phase over well-conditioned start keys: every path it
appends has at least two nodes, the separation invariant is preserved,
the visited set only grows, and every processed key ends up visited. -/
theorem runPhase_spec (adjF : EdgeKey → List EdgeKey) (keys : List EdgeKey)
    (hsub : ∀ k, ∀ y ∈ adjF k, y ∈ keys)
    (hsym : ∀ k y, y ∈ adjF k → k ∈ adjF y)
    (hdeg : ∀ k, (adjF k).length ≤ 2)
    (hnodup : ∀ k, (adjF k).Nodup)
    (hself : ∀ k, k ∉ adjF k)
    (hne : ∀ u ∈ keys, adjF u ≠ [])
    (fuel : ℕ)
    (hfuel : ∀ visited : List EdgeKey,
      (keys.filter (fun x => decide (x ∉ visited))).length < fuel)
    (close : Bool) :
    ∀ (todo visited : List EdgeKey) (acc : List (List EdgeKey)),
      (∀ k ∈ todo, k ∈ keys) →
      (∀ k ∈ todo, (adjF k).length = 1 ∨
        ((adjF k).length = 2 ∧ ∀ u ∈ keys, (adjF u).length = 1 → u ∈ visited)) →
      (∀ u ∈ keys, u ∉ visited → ∀ v ∈ adjF u, v ∉ visited) →
      (∀ p ∈ acc, 2 ≤ p.length) →
      (∀ p ∈ (runPhase adjF fuel close todo visited acc).1, 2 ≤ p.length) ∧
      (∀ u ∈ keys, u ∉ (runPhase adjF fuel close todo visited acc).2 →
        ∀ v ∈ adjF u, v ∉ (runPhase adjF fuel close todo visited acc).2) ∧
      (∀ x ∈ visited, x ∈ (runPhase adjF fuel close todo visited acc).2) ∧
      (∀ k ∈ todo, k ∈ (runPhase adjF fuel close todo visited acc).2) := by
  intro todo
  induction todo with
  | nil =>
      intro visited acc _ _ hinv hacc
      simp only [runPhase]
      exact ⟨hacc, hinv, fun x hx => hx, by simp⟩
  | cons k ks ih =>
      intro visited acc htodo hOK hinv hacc
      by_cases hkv : k ∈ visited
      · have heq : runPhase adjF fuel close (k :: ks) visited acc =
            runPhase adjF fuel close ks visited acc := by
          rw [runPhase, if_pos hkv]
        rw [heq]
        obtain ⟨c1, c2, c3, c4⟩ := ih visited acc
          (fun x hx => htodo x (List.mem_cons_of_mem _ hx))
          (fun x hx => hOK x (List.mem_cons_of_mem _ hx)) hinv hacc
        refine ⟨c1, c2, c3, ?_⟩
        intro x hx
        rcases List.mem_cons.mp hx with rfl | hx'
        · exact c3 x hkv
        · exact c4 x hx'
      · have hsk : k ∈ keys := htodo k (List.mem_cons_self _ _)
        have hdegs : (adjF k).length = 1 ∨
            ((adjF k).length = 2 ∧
              ∀ u ∈ keys, u ∉ visited → (adjF u).length = 2) := by
          rcases hOK k (List.mem_cons_self _ _) with h1 | ⟨h2, h3⟩
          · exact Or.inl h1
          · refine Or.inr ⟨h2, ?_⟩
            intro u huk hunv
            have hd := hdeg u
            have hpos : 0 < (adjF u).length :=
              List.length_pos.mpr (hne u huk)
            have hne1 : (adjF u).length ≠ 1 := fun he => hunv (h3 u huk he)
            omega
        obtain ⟨hlen2, hinv', hviff⟩ := trace_preserves adjF keys hsub hsym
          hdeg hnodup hself fuel visited k (hfuel visited) hkv hsk hinv hdegs
        have heq : runPhase adjF fuel close (k :: ks) visited acc =
            runPhase adjF fuel close ks (traceAux adjF fuel visited k).2
              (acc ++ [if close ∧ 2 < (traceAux adjF fuel visited k).1.length
                then (traceAux adjF fuel visited k).1 ++
                  [(traceAux adjF fuel visited k).1.headD k]
                else (traceAux adjF fuel visited k).1]) := by
          rw [runPhase, if_neg hkv]
        rw [heq]
        have hsubset : ∀ x ∈ visited, x ∈ (traceAux adjF fuel visited k).2 :=
          fun x hx => (hviff x).mpr (Or.inr hx)
        obtain ⟨c1, c2, c3, c4⟩ := ih (traceAux adjF fuel visited k).2
          (acc ++ [if close ∧ 2 < (traceAux adjF fuel visited k).1.length
            then (traceAux adjF fuel visited k).1 ++
              [(traceAux adjF fuel visited k).1.headD k]
            else (traceAux adjF fuel visited k).1])
          (fun x hx => htodo x (List.mem_cons_of_mem _ hx))
          (fun x hx => by
            rcases hOK x (List.mem_cons_of_mem _ hx) with h1 | ⟨h2, h3⟩
            · exact Or.inl h1
            · exact Or.inr ⟨h2, fun u huk hu1 => hsubset u (h3 u huk hu1)⟩)
          hinv'
          (by
            intro p hp
            rcases List.mem_append.mp hp with hp' | hp'
            · exact hacc p hp'
            · simp only [List.mem_singleton] at hp'
              subst hp'
              split_ifs with hc
              · rw [List.length_append]
                simp only [List.length_singleton]
                omega
              · exact hlen2)
        refine ⟨c1, c2, ?_, ?_⟩
        · intro x hx
          exact c3 x (hsubset x hx)
        · intro x hx
          rcases List.mem_cons.mp hx with rfl | hx'
          · apply c3
            apply (hviff x).mpr
            left
            have hh := (traceAux_spec adjF keys hsub fuel visited x hkv
              hsk (hfuel visited)).1
            exact List.mem_of_mem_head? (by rw [hh]; exact rfl)
          · exact c4 x hx'

/-- A flatMap producing two elements per input doubles the length. -/
theorem flatMap_length_two {β γ : Type} (l : List β) (f : β → List γ)
    (hf : ∀ a, (f a).length = 2) : (l.flatMap f).length = 2 * l.length := by
  induction l with
  | nil => simp
  | cons a l ih =>
      rw [List.flatMap_cons, List.length_append, ih, hf a, List.length_cons]
      ring

/-- One Chaikin pass keeps at least 3 points when given at least 3. -/
theorem chaikinPass_length_ge {α : Type} [LinearOrderedField α]
    (l : List (Pt α)) (h : 3 ≤ l.length) : 3 ≤ (chaikinPass l).length := by
  simp only [chaikinPass]
  have hcut : ((l.zip l.tail).flatMap fun q =>
      ([⟨(3 : α) / 4 * q.1.x + 1 / 4 * q.2.x, (3 : α) / 4 * q.1.y + 1 / 4 * q.2.y⟩,
        ⟨(1 : α) / 4 * q.1.x + 3 / 4 * q.2.x, (1 : α) / 4 * q.1.y + 3 / 4 * q.2.y⟩] :
        List (Pt α))).length = 2 * (l.zip l.tail).length :=
    flatMap_length_two _ _ (fun a => rfl)
  have hzip : (l.zip l.tail).length = l.length - 1 := by
    rw [List.length_zip, List.length_tail]
    omega
  split_ifs
  · rw [List.length_append, hcut, hzip]
    simp only [List.length_singleton]
    omega
  · rw [List.length_cons, List.length_append, hcut, hzip]
    simp only [List.length_singleton]
    omega

/-- Iterated Chaikin passes keep at least 3 points. -/
theorem chaikinIter_length_ge {α : Type} [LinearOrderedField α] :
    ∀ (n : ℕ) (l : List (Pt α)), 3 ≤ l.length →
      3 ≤ (chaikinIter n l).length := by
  intro n
  induction n with
  | zero => intro l h; exact h
  | succ n ih =>
      intro l h
      rw [chaikinIter]
      exact ih _ (chaikinPass_length_ge l h)

/-- `smoothChaikin` never shrinks a polyline below 2 points. -/
theorem smoothChaikin_length_ge {α : Type} [LinearOrderedField α]
    (l : List (Pt α)) (iterations : ℕ) (h : 2 ≤ l.length) :
    2 ≤ (smoothChaikin l iterations).length := by
  unfold smoothChaikin
  split_ifs with hg
  · exact h
  · push_neg at hg
    have h3 : 3 ≤ l.length := by omega
    have := chaikinIter_length_ge iterations l h3
    omega

/-- C10: every polyline returned by `marchSquares` — after graph
traversal, loop closing and two Chaikin smoothing iterations — has at
least 2 points. -/
theorem C10_no_short_polylines (g : GridData) (threshold : ℚ) :
    ∀ p ∈ marchSquares g threshold, 2 ≤ p.length := by
  intro p hp
  unfold marchSquares at hp
  simp only at hp
  rw [List.mem_map] at hp
  obtain ⟨q, hq, rfl⟩ := hp
  rw [List.mem_map] at hq
  obtain ⟨kp, hkp, rfl⟩ := hq
  apply smoothChaikin_length_ge
  rw [List.length_map]
  -- now show every traced key path has at least 2 keys
  set conns := allConnections g threshold with hconns
  set adjF := neighbors conns with hadjF
  set keys := insertionKeys conns with hkeys
  set fuel := keys.length + 1 with hfuel_def
  have hsub : ∀ k, ∀ y ∈ adjF k, y ∈ keys := fun k y hy =>
    mem_neighbors_mem_keys hy
  have hsym : ∀ k y, y ∈ adjF k → k ∈ adjF y := fun k y hy =>
    neighbors_symm hy
  have hdeg : ∀ k, (adjF k).length ≤ 2 := fun k => degree_le_two g threshold k
  have hnodup : ∀ k, (adjF k).Nodup := fun k => neighbors_nodup g threshold k
  have hself : ∀ k, k ∉ adjF k := fun k => self_not_mem_neighbors g threshold k
  have hne : ∀ u ∈ keys, adjF u ≠ [] := fun u hu => neighbors_ne_nil hu
  have hfuel : ∀ visited : List EdgeKey,
      (keys.filter (fun x => decide (x ∉ visited))).length < fuel := by
    intro visited
    have := List.length_filter_le (fun x => decide (x ∉ visited)) keys
    omega
  obtain ⟨P1len, P1inv, P1mono, P1done⟩ := runPhase_spec adjF keys hsub hsym
    hdeg hnodup hself hne fuel hfuel false
    (keys.filter (fun k => decide ((adjF k).length = 1))) [] []
    (fun k hk => List.mem_of_mem_filter hk)
    (fun k hk => Or.inl (by
      have := List.of_mem_filter hk
      simpa using this))
    (fun u _ _ v _ => by simp)
    (fun p hp => by simp at hp)
  obtain ⟨P2len, P2inv, P2mono, P2done⟩ := runPhase_spec adjF keys hsub hsym
    hdeg hnodup hself hne fuel hfuel true
    (keys.filter (fun k => decide (¬(adjF k).length = 1)))
    (runPhase adjF fuel false
      (keys.filter (fun k => decide ((adjF k).length = 1))) [] []).2 []
    (fun k hk => List.mem_of_mem_filter hk)
    (fun k hk => by
      have hk1 : ¬(adjF k).length = 1 := by
        have := List.of_mem_filter hk
        simpa using this
      have hkk : k ∈ keys := List.mem_of_mem_filter hk
      have hpos : 0 < (adjF k).length := List.length_pos.mpr (hne k hkk)
      have hle := hdeg k
      refine Or.inr ⟨by omega, ?_⟩
      intro u huk hu1
      apply P1done
      exact List.mem_filter.mpr ⟨huk, by simpa using hu1⟩)
    P1inv
    (fun p hp => by simp at hp)
  rcases List.mem_append.mp hkp with hk1 | hk2
  · exact P1len kp hk1
  · exact P2len kp hk2

end BeaconSim
namespace BeaconSim

/-- Witness for C10 at a concrete saddle grid (2×2 grid with TL and BR
above threshold): the first polyline of the output has at least 2 points. -/
theorem C10_no_short_polylines_witness :
    2 ≤ ((marchSquares ⟨fun i => [10, 0, 0, 10].getD i 0, 2, 2, 0, 1, 0, 1⟩
      5).headD []).length :=
  C10_no_short_polylines ⟨fun i => [10, 0, 0, 10].getD i 0, 2, 2, 0, 1, 0, 1⟩ 5
    _ (by
      have h : (marchSquares
          ⟨fun i => [10, 0, 0, 10].getD i 0, 2, 2, 0, 1, 0, 1⟩ 5).length = 2 := by
        decide
      cases hl : marchSquares
          ⟨fun i => [10, 0, 0, 10].getD i 0, 2, 2, 0, 1, 0, 1⟩ 5 with
      | nil => rw [hl] at h; simp at h
      | cons a l => simp
      )

end BeaconSim
